import Mathlib

/-!
Verification of the archy-knowledge-graph core against its specification.

The graph engine lives in `src/parser.ts`: per-note typed link sets
(`NoteLinks`), bidirectional inference (`inferBidirectionalLinks`),
transitive reduction (`applyTransitiveReduction`) with its reachability
search (`isReachableLeadsto`).  The link extractor (`toArray`,
`INLINE_TAG_REGEX`, `resolveTagMatch`, `parseNoteLinks`) is in the same
file.  The mindmap layout (`slotW`, `layoutDown`) and force-layout
repulsion (`applyForces` in `src/forceGraph.ts`) are embedded further
below.

Modelling conventions:
* A TypeScript `Map<string, NoteLinks>` is an association list
  `List (String × NoteLinks)` looked up by first match; the host `Map`
  guarantees unique keys, which theorems assume as a `Nodup` hypothesis
  where needed.
* In-place mutation becomes explicit state threading (folds).
* JS `Set` insertion becomes append-if-absent on lists, preserving
  insertion order exactly as `Set` iteration does.
* The recursion of `isReachableLeadsto` terminates in JS because every
  recursive call adds a fresh map key to `visited`; the embedding makes
  that explicit with a fuel argument initialised to `snapshot.length + 1`,
  an upper bound on the recursion depth, so the fuel is never exhausted
  (`reach_complete` quantifies the sufficient fuel as one more than the
  number of keys not yet visited).
-/
namespace ArchyKG

/-- Structure `NoteLinks` from `src/types.ts`: the three relationship arrays of one note. -/
structure NoteLinks where
  noteName : String
  leadsto : List String
  dependson : List String
  informedby : List String
  deriving Repr, DecidableEq

/-- The in-memory graph: note name → its `NoteLinks` (a JS `Map` as an
association list in insertion order). -/
abbrev Graph := List (String × NoteLinks)

/-- Result of `graph.get(name)` when the name is absent never flows into the
algorithms (every access is guarded), so the default is inert. -/
def defaultLinks : NoteLinks := ⟨"", [], [], []⟩

def lookupLinks (g : Graph) (k : String) : NoteLinks :=
  (List.lookup k g).getD defaultLinks

/-- The key list of the graph, in insertion order. -/
def keys (g : Graph) : List String := g.map Prod.fst

/-- Models `childLinks.dependson.push(noteName)` guarded by
`!childLinks.dependson.includes(noteName)`, applied to the entry of `target`
(no-op when `target` is not a key, mirroring the `if (childLinks)` guard). -/
def pushDependson (g : Graph) (target src : String) : Graph :=
  g.map fun e =>
    if e.1 = target then
      (e.1, if src ∈ e.2.dependson then e.2
            else { e.2 with dependson := e.2.dependson ++ [src] })
    else e

/-- Models `parentLinks.leadsto.push(noteName)` guarded by
`!parentLinks.leadsto.includes(noteName)`. -/
def pushLeadsto (g : Graph) (target src : String) : Graph :=
  g.map fun e =>
    if e.1 = target then
      (e.1, if src ∈ e.2.leadsto then e.2
            else { e.2 with leadsto := e.2.leadsto ++ [src] })
    else e

/-- The body of the `for (const [noteName, links] of entries)` loop of
`inferBidirectionalLinks`.  Rule A iterates a copy of the note's current
`leadsto` array (pushes of rule A touch only `dependson` arrays, so the copy
equals the live array throughout); rule B then iterates a copy of the note's
`dependson` array taken after rule A ran. -/
def inferStep (g : Graph) (noteName : String) : Graph :=
  let links := lookupLinks g noteName
  let g1 := links.leadsto.foldl (fun h child => pushDependson h child noteName) g
  let links1 := lookupLinks g1 noteName
  links1.dependson.foldl (fun h parent => pushLeadsto h parent noteName) g1

/-- Function `inferBidirectionalLinks` from `src/parser.ts` (lines 102-122): the
entries snapshot fixes the iteration list of note names; each note is
processed against the live (already partially updated) graph. -/
def inferBidirectionalLinks (g : Graph) : Graph :=
  (keys g).foldl inferStep g

/-! ### Transitive reduction -/
/-- The leadsto snapshot: note name → copy of its `leadsto` array. -/
abbrev Snap := List (String × List String)

def lookupSnap (s : Snap) (k : String) : List String :=
  (List.lookup k s).getD []

def snapshotOf (g : Graph) : Snap := g.map fun p => (p.1, p.2.leadsto)

/-- Function `isReachableLeadsto` from `src/parser.ts` (lines 177-188), with the
termination argument (each recursing level adds a distinct snapshot key to
`visited`) made explicit as fuel. -/
def reachAux (s : Snap) : Nat → String → String → List String → Bool
  | 0, _, _, _ => false
  | fuel+1, f, t, visited =>
    if f ∈ visited then false
    else
      let children := lookupSnap s f
      if t ∈ children then true
      else children.any fun n => reachAux s fuel n t (f :: visited)

def isReachableLeadsto (s : Snap) (f t : String) (visited : List String) : Bool :=
  reachAux s (s.length + 1) f t visited

/-- Edge `A→C` is redundant: some other direct neighbour `B ≠ C` of `A` reaches
`C`, searching the snapshot with the visited set seeded with `A`. -/
def redundantEdge (s : Snap) (noteA noteC : String) : Bool :=
  (lookupSnap s noteA).any fun noteB =>
    decide (noteB ≠ noteC) && isReachableLeadsto s noteB noteC [noteA]

/-- Body of the `for (const [noteA, linksA] of graph)` loop of
`applyTransitiveReduction`: compute `toRemove` from the snapshot, and if
non-empty filter `noteA`'s live `leadsto` and the removed targets'
`dependson` arrays. -/
def reduceStep (s : Snap) (g : Graph) (noteA : String) : Graph :=
  let originalLeadsto := lookupSnap s noteA
  let toRemove := originalLeadsto.filter fun noteC => redundantEdge s noteA noteC
  if toRemove = [] then g
  else
    g.map fun e =>
      let l1 := if e.1 = noteA then
          { e.2 with leadsto := e.2.leadsto.filter fun n => decide (n ∉ toRemove) }
        else e.2
      let l2 := if e.1 ∈ toRemove then
          { l1 with dependson := l1.dependson.filter fun n => decide (n ≠ noteA) }
        else l1
      (e.1, l2)

/-- Function `applyTransitiveReduction` from `src/parser.ts` (lines 136-171). -/
def applyTransitiveReduction (g : Graph) : Graph :=
  let snapshot := snapshotOf g
  (keys g).foldl (reduceStep snapshot) g

/-- A snapshot has no `LeadsTo` cycle: no key reaches itself via one or more
`leadsto` hops.  (Non-keys have no outgoing edges and cannot reach
themselves at all.) -/
def AcyclicSnap (s : Snap) : Prop :=
  ∀ x ∈ s.map Prod.fst, isReachableLeadsto s x x [] = false

instance (s : Snap) : Decidable (AcyclicSnap s) := by
  unfold AcyclicSnap; infer_instance

/-- Entry-wise value update keeping keys: the common shape of every graph
mutation in the source (properties of a `Map` value object are reassigned,
entries are never added, removed or re-keyed). -/
def EntryMap (F : String → NoteLinks → NoteLinks) (g : Graph) : Graph :=
  g.map fun e => (e.1, F e.1 e.2)

/-! ### Growth: the bidirectional pass only appends

`Extends g h` : `h` has the same keys as `g`, every note's `leadsto` and
`dependson` arrays in `g` are prefixes of those in `h`, and `informedby`
and `noteName` are unchanged. -/
def Extends (g h : Graph) : Prop :=
  keys h = keys g ∧
  ∀ k, (lookupLinks g k).leadsto <+: (lookupLinks h k).leadsto ∧
       (lookupLinks g k).dependson <+: (lookupLinks h k).dependson ∧
       (lookupLinks h k).informedby = (lookupLinks g k).informedby ∧
       (lookupLinks h k).noteName = (lookupLinks g k).noteName

/-! ### Inverse-consistency through the pass

`InvPartial g rest`: for every pair with `B` a key, each `leadsto` /
`dependson` membership is either already balanced by its inverse edge or
its owner `A` still awaits processing (`A ∈ rest`). -/
def InvPartial (g : Graph) (rest : List String) : Prop :=
  ∀ A B : String, B ∈ keys g →
    (B ∈ (lookupLinks g A).leadsto →
      A ∈ (lookupLinks g B).dependson ∨ A ∈ rest) ∧
    (B ∈ (lookupLinks g A).dependson →
      A ∈ (lookupLinks g B).leadsto ∨ A ∈ rest)

/-! ### Force-layout repulsion (`applyForces` in `src/forceGraph.ts`)

Positions and forces are modelled over `ℚ`.  Only the divisor and the
scalar force magnitude are embedded: the claim under review concerns the
`d2` computation, not the direction vector (whose `Math.sqrt` has no exact
rational counterpart). -/
/-- Constant `REPULSION = 5500` (src/forceGraph.ts line 23). -/
def REPULSION : ℚ := 5500

/-- JS `x || d` on numbers: yields `d` exactly when `x` is falsy, i.e. zero. -/
def jsOrQ (x d : ℚ) : ℚ := if x = 0 then d else x

/-- Computation `const d2 = dx * dx + dy * dy || 0.01` for the node pair `(a, b)`
(src/forceGraph.ts line 351). -/
def repulsionD2 (a b : ℚ × ℚ) : ℚ :=
  let dx := b.1 - a.1
  let dy := b.2 - a.2
  jsOrQ (dx * dx + dy * dy) (1/100)

/-- Computation `const f = REPULSION / d2` (src/forceGraph.ts line 353). -/
def repulsionMag (a b : ℚ × ℚ) : ℚ := REPULSION / repulsionD2 a b

/-! ### Metadata normalization (`toArray` in `parseNoteLinks`)

Frontmatter values reaching `toArray` are YAML scalars or lists of
scalars; the model covers exactly those (`unknown` in the source). -/
/-- A YAML frontmatter scalar. -/
inductive FmScalar where
  | null
  | boolv (b : Bool)
  | num (n : Int)
  | str (s : String)
  deriving Repr, DecidableEq

/-- A frontmatter value as the `unknown` the extractor receives:
absent key, scalar, or list of scalars. -/
inductive FmVal where
  | missing
  | scalar (sc : FmScalar)
  | arr (elems : List FmScalar)
  deriving Repr, DecidableEq

/-- JS `String(v)` on a scalar. -/
def jsStringS : FmScalar → String
  | .null => "null"
  | .boolv b => if b then "true" else "false"
  | .num n => toString n
  | .str s => s

/-- JS falsiness of the value (`!val`): `undefined`, `null`, `false`, `0`
and `""` are falsy; every array (even `[]`) is truthy. -/
def falsy : FmVal → Bool
  | .missing => true
  | .scalar .null => true
  | .scalar (.boolv b) => !b
  | .scalar (.num n) => n == 0
  | .scalar (.str s) => s == ""
  | .arr _ => false

/-- Function `toArray` from `parseNoteLinks` (src/parser.ts lines 35-39):
`if (!val) return []; if (Array.isArray(val)) return
val.map(String).filter(Boolean); return [String(val)].filter(Boolean)`.
`filter(Boolean)` on strings drops exactly the empty string. -/
def toArray (val : FmVal) : List String :=
  if falsy val then []
  else
    match val with
    | .arr l => (l.map jsStringS).filter fun s => decide (s ≠ "")
    | .missing => [].filter fun s => decide (s ≠ "")
    | .scalar sc => [jsStringS sc].filter fun s => decide (s ≠ "")

/-- A blank string: nonempty and consisting only of whitespace. -/
def isBlankStr (s : String) : Bool := (s ≠ "" : Bool) && s.data.all Char.isWhitespace

/-! ### Walks in a leadsto snapshot -/
/-- A `leadsto` edge of the snapshot. -/
def edgeOf (s : Snap) (a b : String) : Prop := b ∈ lookupSnap s a

/-- Predicate `Walk s f l t`: `l` is the list of nodes visited after `f`, each step an
edge, ending at `t` (so zero edges when `l = []`, and `l.getLast = t`
otherwise). -/
def Walk (s : Snap) : String → List String → String → Prop
  | f, [], t => f = t
  | f, n :: l, t => edgeOf s f n ∧ Walk s n l t

/-- The keys not yet visited; the recursion depth left to
`isReachableLeadsto`. -/
def countFree (s : Snap) (vis : List String) : Nat :=
  ((s.map Prod.fst).filter fun k => decide (k ∉ vis)).length

/-- The per-entry update of `reduceStep`'s non-trivial branch. -/
def rsF (s : Snap) (noteA : String) (k : String) (l : NoteLinks) : NoteLinks :=
  let toRemove := (lookupSnap s noteA).filter fun noteC => redundantEdge s noteA noteC
  let l1 := if k = noteA then
      { l with leadsto := l.leadsto.filter fun n => decide (n ∉ toRemove) }
    else l
  if k ∈ toRemove then
    { l1 with dependson := l1.dependson.filter fun n => decide (n ≠ noteA) }
  else l1

/-- The cyclic graph `{A→[B,C], B→[C], C→[B]}` used to refute C1 as stated. -/
def cycGraph : Graph :=
  [("A", ⟨"A", ["B", "C"], [], []⟩),
   ("B", ⟨"B", ["C"], [], []⟩),
   ("C", ⟨"C", ["B"], [], []⟩)]

/-- The acyclic graph `{A→[B,C], B→[C], C→[]}` (the spec's own reduction
scenario) for the C1 / C4 witnesses. -/
def dagGraph : Graph :=
  [("A", ⟨"A", ["B", "C"], [], []⟩),
   ("B", ⟨"B", ["C"], [], []⟩),
   ("C", ⟨"C", [], [], []⟩)]

/-! ### Mindmap tree layout (part_003: `slotW`, `layoutDown`, `layoutUp`)

Coordinates are modelled over `ℚ`.  `MmNode`'s `children: MmNode[]` is the
mutual inductive `MmForest` (a cons-list) so that all layout recursions are
structural. -/
/-- Constant `MM_H_GAP = 20` (part_003 line 29). -/
def MM_H_GAP : ℚ := 20

/-- Constant `MM_V_GAP = 80` (part_003 line 30). -/
def MM_V_GAP : ℚ := 80

mutual
/-- Type `MmNode` from part_003: name, linkType tag, position, children. -/
inductive MmNode where
  | mk (name : String) (linkType : String) (x y : ℚ) (children : MmForest)
inductive MmForest where
  | nil
  | cons (c : MmNode) (cs : MmForest)
end

def forestLen : MmForest → Nat
  | .nil => 0
  | .cons _ cs => forestLen cs + 1

mutual
/-- Function `slotW` (part_003 lines 605-610): a leaf takes the base slot; an inner
node takes the larger of the base slot and its children's total band
(sum of their slots plus inter-sibling gaps). -/
def slotW : MmNode → ℚ → ℚ
  | .mk _ _ _ _ children, mmSlot =>
    if forestLen children = 0 then mmSlot
    else max mmSlot
      (slotWSum children mmSlot + ((forestLen children : ℚ) - 1) * MM_H_GAP)
def slotWSum : MmForest → ℚ → ℚ
  | .nil, _ => 0
  | .cons c cs, mmSlot => slotW c mmSlot + slotWSum cs mmSlot
end

/-- Value `bandW` as computed at the top of `layoutDown` / `layoutUp`
(part_003 lines 614-615 / 627-628). -/
def bandW (cs : MmForest) (mmSlot : ℚ) : ℚ :=
  slotWSum cs mmSlot + ((forestLen cs : ℚ) - 1) * MM_H_GAP

mutual
/-- Place the subtree rooted at `c` with its centre at `cx` on row `y`
(the loop body `c.x = x + sw/2; c.y = y; layoutDown(c.children, c.x,
y + MM_V_GAP, mmSlot)`). -/
def placeNode : MmNode → ℚ → ℚ → ℚ → MmNode
  | .mk n t _ _ ch, cx, y, mmSlot =>
    .mk n t cx y (layoutGo ch (cx - bandW ch mmSlot / 2) (y + MM_V_GAP) mmSlot)
/-- The running-`x` loop of `layoutDown` (part_003 lines 616-622). -/
def layoutGo : MmForest → ℚ → ℚ → ℚ → MmForest
  | .nil, _, _, _ => .nil
  | .cons c rest, x, y, mmSlot =>
    .cons (placeNode c (x + slotW c mmSlot / 2) y mmSlot)
      (layoutGo rest (x + slotW c mmSlot + MM_H_GAP) y mmSlot)
end

/-- Function `layoutDown` (part_003 lines 612-623), functionally: returns the
repositioned children. -/
def layoutDown (children : MmForest) (parentCX y mmSlot : ℚ) : MmForest :=
  layoutGo children (parentCX - bandW children mmSlot / 2) y mmSlot

mutual
/-- The `layoutUp` loop body: identical except children recurse upward
(`y - MM_V_GAP`, part_003 line 633). -/
def placeNodeUp : MmNode → ℚ → ℚ → ℚ → MmNode
  | .mk n t _ _ ch, cx, y, mmSlot =>
    .mk n t cx y (layoutGoUp ch (cx - bandW ch mmSlot / 2) (y - MM_V_GAP) mmSlot)
def layoutGoUp : MmForest → ℚ → ℚ → ℚ → MmForest
  | .nil, _, _, _ => .nil
  | .cons c rest, x, y, mmSlot =>
    .cons (placeNodeUp c (x + slotW c mmSlot / 2) y mmSlot)
      (layoutGoUp rest (x + slotW c mmSlot + MM_H_GAP) y mmSlot)
end

/-- Function `layoutUp` (part_003 lines 625-636). -/
def layoutUp (children : MmForest) (parentCX y mmSlot : ℚ) : MmForest :=
  layoutGoUp children (parentCX - bandW children mmSlot / 2) y mmSlot

/-- The x-coordinate of a node. -/
def MmNode.gx : MmNode → ℚ
  | .mk _ _ x _ _ => x

mutual
/-- Function `walkMm` (part_003 lines 638-641): every node of a subtree. -/
def nodesN : MmNode → List MmNode
  | .mk n t x y ch => .mk n t x y ch :: nodesF ch
def nodesF : MmForest → List MmNode
  | .nil => []
  | .cons c cs => nodesN c ++ nodesF cs
end

def toListF : MmForest → List MmNode
  | .nil => []
  | .cons c cs => c :: toListF cs

/-- Two leaf siblings, for the C8 witness. -/
def mmTwoLeaves : MmForest :=
  .cons (.mk "L1" "leadsto" 0 0 .nil) (.cons (.mk "L2" "leadsto" 0 0 .nil) .nil)

def mmLaidA : MmNode := .mk "L1" "leadsto" (-37) 0 .nil

def mmLaidB : MmNode := .mk "L2" "leadsto" 37 0 .nil

/-! ### Inline tag extraction

`INLINE_TAG_REGEX = /(?:\b(leadsto|dependson|informedby)|([><!]))@(?:"([^"]+)"|([\w\-]+))/g`
(src/parser.ts line 11) plus the `exec` loop of `parseNoteLinks`.  The
keyword and shorthand alternatives start with disjoint characters and the
three keywords start with distinct letters, so the regex alternation
collapses to a deterministic case split at each position; `exec` with the
`g` flag scans positions left to right and resumes after each match. -/
/-- JS `\w`: ASCII letters, digits and underscore. -/
def isWordChar (c : Char) : Bool := c.isAlphanum || c = '_'

/-- The target class `[\w\-]`. -/
def isTargetChar (c : Char) : Bool := isWordChar c || c = '-'

/-- The capture groups of one match: `[1]` keyword, `[2]` shorthand,
`[3]` quoted target, `[4]` unquoted target. -/
structure TagMatch where
  kw : Option String
  short : Option Char
  quoted : Option String
  unquoted : Option String
  deriving Repr, DecidableEq

/-- Map `SHORTHAND_MAP` (src/parser.ts lines 13-17). -/
def SHORTHAND_MAP : Char → Option String := fun c =>
  if c = '>' then some "leadsto"
  else if c = '<' then some "dependson"
  else if c = '!' then some "informedby"
  else none

/-- Function `resolveTagMatch` (src/parser.ts lines 20-25): type is
`m[1] || SHORTHAND_MAP[m[2]]`, target is `m[3] || m[4]`; `null` when either
is missing (captured groups are never empty strings, so JS falsiness on
them is just absence). -/
def resolveTagMatch (m : TagMatch) : Option (String × String) :=
  let ty := match m.kw with
    | some k => some k
    | none => match m.short with
      | some c => SHORTHAND_MAP c
      | none => none
  let target := match m.quoted with
    | some q => some q
    | none => m.unquoted
  match ty, target with
  | some t, some tg => some (t, tg)
  | _, _ => none

/-- Strip a literal character prefix, returning the remainder on success. -/
def dropPfx : List Char → List Char → Option (List Char)
  | [], cs => some cs
  | _ :: _, [] => none
  | p :: ps, c :: cs => if c = p then dropPfx ps cs else none

/-- The target alternation `(?:"([^"]+)"|([\w\-]+))`: quoted first (at least
one non-quote character, then a closing quote), otherwise a maximal nonempty
run of word/hyphen characters.  Returns the target, whether it was quoted,
the last matched character, and the remaining text.  At an unclosed or empty
quote both alternatives fail (`"` is not a target character). -/
def tryTarget : List Char → Option (String × Bool × Char × List Char)
  | '"' :: rest =>
    let tgt := rest.takeWhile fun c => decide (c ≠ '"')
    match tgt, rest.dropWhile fun c => decide (c ≠ '"') with
    | t0 :: ts, '"' :: rest2 => some (String.mk (t0 :: ts), true, '"', rest2)
    | _, _ => none
  | cs =>
    match cs.takeWhile isTargetChar with
    | [] => none
    | t0 :: ts =>
      some (String.mk (t0 :: ts), false, List.getLastD (t0 :: ts) t0,
            cs.dropWhile isTargetChar)

/-- Attempt `INLINE_TAG_REGEX` at one position.  `\b` before a keyword (all
keywords start with a letter) holds exactly when the preceding character is
absent or not a word character. -/
def tryMatchAt (prev : Option Char) (cs : List Char) :
    Option (TagMatch × Char × List Char) :=
  let boundary := match prev with
    | none => true
    | some p => !(isWordChar p)
  let kwTry : Option (String × List Char) :=
    if boundary then
      match dropPfx "leadsto".data cs with
      | some r => some ("leadsto", r)
      | none => match dropPfx "dependson".data cs with
        | some r => some ("dependson", r)
        | none => match dropPfx "informedby".data cs with
          | some r => some ("informedby", r)
          | none => none
    else none
  match kwTry with
  | some (kw, r) =>
    match r with
    | '@' :: r2 =>
      match tryTarget r2 with
      | some (tgt, true, lastC, rest) => some (⟨some kw, none, some tgt, none⟩, lastC, rest)
      | some (tgt, false, lastC, rest) => some (⟨some kw, none, none, some tgt⟩, lastC, rest)
      | none => none
    | _ => none
  | none =>
    match cs with
    | c :: r =>
      if (SHORTHAND_MAP c).isSome then
        match r with
        | '@' :: r2 =>
          match tryTarget r2 with
          | some (tgt, true, lastC, rest) => some (⟨none, some c, some tgt, none⟩, lastC, rest)
          | some (tgt, false, lastC, rest) => some (⟨none, some c, none, some tgt⟩, lastC, rest)
          | none => none
        | _ => none
      else none
    | [] => none

/-- Loop `while ((m = INLINE_TAG_REGEX.exec(body)) !== null)`
(src/parser.ts lines 51-60): at each position try a match; on success
resolve it and resume after the match (`lastIndex`), otherwise advance one
character.  `prev` is the character before the position (for `\b`); the
fuel is the remaining length (each step consumes at least one character). -/
def scanAux : Nat → Option Char → List Char → List (String × String)
  | 0, _, _ => []
  | _, _, [] => []
  | fuel+1, prev, c :: cs =>
    match tryMatchAt prev (c :: cs) with
    | some (m, lastC, rest) =>
      match resolveTagMatch m with
      | some tt => tt :: scanAux fuel (some lastC) rest
      | none => scanAux fuel (some lastC) rest
    | none => scanAux fuel (some c) cs

def scanInlineTags (body : String) : List (String × String) :=
  scanAux body.data.length none body.data

/-- Find the first `---` occurrence, returning what follows it. -/
def findClose : List Char → Option (List Char)
  | '-' :: '-' :: '-' :: rest => some rest
  | _ :: cs => findClose cs
  | [] => none

/-- Frontmatter strip `raw.startsWith('---') ? raw.replace(/^---[\s\S]*?---\n?/, '') : raw`
(src/parser.ts lines 47-49): non-greedy, so the match ends at the first
`---` after the opening one, plus at most one newline. -/
def stripFrontmatter (raw : String) : String :=
  match raw.data with
  | '-' :: '-' :: '-' :: rest =>
    match findClose rest with
    | some r => String.mk (match r with | '\n' :: r2 => r2 | _ => r)
    | none => raw
  | _ => raw

/-- JS `Set.add`: append if absent (insertion order preserved). -/
def addSet (l : List String) (x : String) : List String :=
  if x ∈ l then l else l ++ [x]

def setOfList (xs : List String) : List String := xs.foldl addSet []

/-- The loop body adding one resolved tag to the three sets
(`if (type === 'leadsto') leadsto.add(target)` and the two independent
`if`s that follow it). -/
def addTag (acc : List String × List String × List String)
    (tt : String × String) : List String × List String × List String :=
  let acc1 := if tt.1 = "leadsto" then (addSet acc.1 tt.2, acc.2.1, acc.2.2) else acc
  let acc2 := if tt.1 = "dependson" then (acc1.1, addSet acc1.2.1 tt.2, acc1.2.2) else acc1
  if tt.1 = "informedby" then (acc2.1, acc2.2.1, addSet acc2.2.2 tt.2) else acc2

/-- Function `parseNoteLinks` (src/parser.ts lines 31-71) for a readable document:
seed the three sets from the frontmatter values, strip the frontmatter
block from the body, scan for inline tags, and add each resolved tag to
its set. -/
def parseNoteLinks (basename : String)
    (fmLeadsto fmDependson fmInformedby : FmVal) (raw : String) : NoteLinks :=
  let body := stripFrontmatter raw
  let tags := scanInlineTags body
  let init := (setOfList (toArray fmLeadsto), setOfList (toArray fmDependson),
               setOfList (toArray fmInformedby))
  let final := tags.foldl addTag init
  ⟨basename, final.1, final.2.1, final.2.2⟩

/-! ### Association-list infrastructure -/
theorem lookup_cons {β : Type} (k a : String) (b : β) (l : List (String × β)) :
    List.lookup k ((a, b) :: l) = if k = a then some b else List.lookup k l := by
  by_cases h : k = a
  · simp [List.lookup, h]
  · have hb : (k == a) = false := by simp [h]
    simp [List.lookup, h, hb]

theorem mem_keys_iff_lookup {β : Type} (k : String) (l : List (String × β)) :
    k ∈ l.map Prod.fst ↔ ∃ b, List.lookup k l = some b := by
  induction l with
  | nil => simp
  | cons e t ih =>
    obtain ⟨a, b⟩ := e
    by_cases h : k = a <;> simp [lookup_cons, h, ih]

theorem lookup_mapVal {β γ : Type} (F : String → β → γ)
    (l : List (String × β)) (k : String) :
    List.lookup k (l.map fun e => (e.1, F e.1 e.2)) =
      (List.lookup k l).map fun b => F k b := by
  induction l with
  | nil => simp
  | cons e t ih =>
    obtain ⟨a, b⟩ := e
    by_cases h : k = a
    · subst h; simp [lookup_cons]
    · simp [lookup_cons, h, ih]

theorem keys_EntryMap (F : String → NoteLinks → NoteLinks) (g : Graph) :
    keys (EntryMap F g) = keys g := by
  simp [keys, EntryMap]

theorem lookupLinks_EntryMap (F : String → NoteLinks → NoteLinks) (g : Graph)
    (k : String) :
    lookupLinks (EntryMap F g) k =
      match List.lookup k g with
      | some l => F k l
      | none => defaultLinks := by
  unfold lookupLinks EntryMap
  rw [lookup_mapVal]
  cases List.lookup k g <;> simp

theorem lookupLinks_EntryMap_of_mem (F : String → NoteLinks → NoteLinks)
    (g : Graph) (k : String) (hk : k ∈ keys g) :
    lookupLinks (EntryMap F g) k = F k (lookupLinks g k) := by
  obtain ⟨b, hb⟩ := (mem_keys_iff_lookup k g).1 hk
  rw [lookupLinks_EntryMap, lookupLinks, hb]
  rfl

theorem lookupLinks_EntryMap_of_not_mem (F : String → NoteLinks → NoteLinks)
    (g : Graph) (k : String) (hk : k ∉ keys g) :
    lookupLinks (EntryMap F g) k = defaultLinks ∧ lookupLinks g k = defaultLinks := by
  have : List.lookup k g = none := by
    cases h : List.lookup k g with
    | none => rfl
    | some b => exact absurd ((mem_keys_iff_lookup k g).2 ⟨b, h⟩) hk
  rw [lookupLinks_EntryMap, lookupLinks, this]
  exact ⟨rfl, rfl⟩

theorem pushDependson_eq_EntryMap (g : Graph) (target src : String) :
    pushDependson g target src =
      EntryMap (fun k l =>
        if k = target then
          (if src ∈ l.dependson then l
           else { l with dependson := l.dependson ++ [src] })
        else l) g := by
  unfold pushDependson EntryMap
  apply List.map_congr_left
  intro e _
  by_cases h : e.1 = target <;> simp [h]

theorem pushLeadsto_eq_EntryMap (g : Graph) (target src : String) :
    pushLeadsto g target src =
      EntryMap (fun k l =>
        if k = target then
          (if src ∈ l.leadsto then l
           else { l with leadsto := l.leadsto ++ [src] })
        else l) g := by
  unfold pushLeadsto EntryMap
  apply List.map_congr_left
  intro e _
  by_cases h : e.1 = target <;> simp [h]

theorem Extends.refl (g : Graph) : Extends g g :=
  ⟨rfl, fun _ => ⟨List.prefix_refl _, List.prefix_refl _, rfl, rfl⟩⟩

theorem Extends.trans {g h i : Graph} (h1 : Extends g h) (h2 : Extends h i) :
    Extends g i := by
  refine ⟨h2.1.trans h1.1, fun k => ?_⟩
  obtain ⟨a1, b1, c1, d1⟩ := h1.2 k
  obtain ⟨a2, b2, c2, d2⟩ := h2.2 k
  exact ⟨a1.trans a2, b1.trans b2, c2.trans c1, d2.trans d1⟩

theorem extends_pushDependson (g : Graph) (target src : String) :
    Extends g (pushDependson g target src) := by
  rw [pushDependson_eq_EntryMap]
  refine ⟨keys_EntryMap _ g, fun k => ?_⟩
  by_cases hk : k ∈ keys g
  · rw [lookupLinks_EntryMap_of_mem _ g k hk]
    by_cases h : k = target
    · subst h
      by_cases hs : src ∈ (lookupLinks g k).dependson
      · rw [if_pos rfl, if_pos hs]
        exact ⟨List.prefix_refl _, List.prefix_refl _, rfl, rfl⟩
      · rw [if_pos rfl, if_neg hs]
        exact ⟨List.prefix_refl _, List.prefix_append _ _, rfl, rfl⟩
    · rw [if_neg h]
      exact ⟨List.prefix_refl _, List.prefix_refl _, rfl, rfl⟩
  · obtain ⟨e1, e2⟩ := lookupLinks_EntryMap_of_not_mem _ g k hk
    rw [e1, e2]
    exact ⟨List.prefix_refl _, List.prefix_refl _, rfl, rfl⟩

theorem extends_pushLeadsto (g : Graph) (target src : String) :
    Extends g (pushLeadsto g target src) := by
  rw [pushLeadsto_eq_EntryMap]
  refine ⟨keys_EntryMap _ g, fun k => ?_⟩
  by_cases hk : k ∈ keys g
  · rw [lookupLinks_EntryMap_of_mem _ g k hk]
    by_cases h : k = target
    · subst h
      by_cases hs : src ∈ (lookupLinks g k).leadsto
      · rw [if_pos rfl, if_pos hs]
        exact ⟨List.prefix_refl _, List.prefix_refl _, rfl, rfl⟩
      · rw [if_pos rfl, if_neg hs]
        exact ⟨List.prefix_append _ _, List.prefix_refl _, rfl, rfl⟩
    · rw [if_neg h]
      exact ⟨List.prefix_refl _, List.prefix_refl _, rfl, rfl⟩
  · obtain ⟨e1, e2⟩ := lookupLinks_EntryMap_of_not_mem _ g k hk
    rw [e1, e2]
    exact ⟨List.prefix_refl _, List.prefix_refl _, rfl, rfl⟩

theorem extends_foldl {α : Type} (step : Graph → α → Graph)
    (hstep : ∀ g x, Extends g (step g x)) :
    ∀ (L : List α) (g : Graph), Extends g (L.foldl step g) := by
  intro L
  induction L with
  | nil => exact fun g => Extends.refl g
  | cons x t ih =>
    intro g
    exact (hstep g x).trans (ih (step g x))

theorem extends_inferStep (g : Graph) (noteName : String) :
    Extends g (inferStep g noteName) := by
  unfold inferStep
  exact (extends_foldl (fun h c => pushDependson h c noteName)
          (fun h c => extends_pushDependson h c noteName)
          (lookupLinks g noteName).leadsto g).trans
        (extends_foldl (fun h p => pushLeadsto h p noteName)
          (fun h p => extends_pushLeadsto h p noteName) _ _)

theorem extends_infer (g : Graph) : Extends g (inferBidirectionalLinks g) :=
  extends_foldl inferStep extends_inferStep (keys g) g

/-- C5: for every graph and every document, `inferBidirectionalLinks` leaves
that document's `informedby` set exactly unchanged — the bidirectional
inference pass never adds to or removes from any `informedby` set. -/
theorem infer_never_touches_informedby (g : Graph) (A : String) :
    (lookupLinks (inferBidirectionalLinks g) A).informedby =
      (lookupLinks g A).informedby :=
  ((extends_infer g).2 A).2.2.1

/-- C10: bidirectional inference is monotone — for every graph, document and
relationship kind, the pre-pass array is a prefix of the post-pass array
(`informedby` is even unchanged), so every previously present target is
still present, in its original position, and nothing is removed or
reordered. -/
theorem infer_monotone (g : Graph) (A : String) :
    (lookupLinks g A).leadsto <+: (lookupLinks (inferBidirectionalLinks g) A).leadsto ∧
    (lookupLinks g A).dependson <+: (lookupLinks (inferBidirectionalLinks g) A).dependson ∧
    (lookupLinks (inferBidirectionalLinks g) A).informedby = (lookupLinks g A).informedby := by
  obtain ⟨a, b, c, _⟩ := (extends_infer g).2 A
  exact ⟨a, b, c⟩

/-! ### Effect of a single push, precisely -/
theorem keys_pushDependson (g : Graph) (t s : String) :
    keys (pushDependson g t s) = keys g := by
  rw [pushDependson_eq_EntryMap]; exact keys_EntryMap _ g

theorem keys_pushLeadsto (g : Graph) (t s : String) :
    keys (pushLeadsto g t s) = keys g := by
  rw [pushLeadsto_eq_EntryMap]; exact keys_EntryMap _ g

theorem pushDependson_leadsto (g : Graph) (t s k : String) :
    (lookupLinks (pushDependson g t s) k).leadsto = (lookupLinks g k).leadsto := by
  rw [pushDependson_eq_EntryMap]
  by_cases hk : k ∈ keys g
  · rw [lookupLinks_EntryMap_of_mem _ g k hk]
    by_cases h : k = t
    · subst h
      by_cases hs : s ∈ (lookupLinks g k).dependson
      · rw [if_pos rfl, if_pos hs]
      · rw [if_pos rfl, if_neg hs]
    · rw [if_neg h]
  · obtain ⟨e1, e2⟩ := lookupLinks_EntryMap_of_not_mem _ g k hk
    rw [e1, e2]

theorem pushLeadsto_dependson (g : Graph) (t s k : String) :
    (lookupLinks (pushLeadsto g t s) k).dependson = (lookupLinks g k).dependson := by
  rw [pushLeadsto_eq_EntryMap]
  by_cases hk : k ∈ keys g
  · rw [lookupLinks_EntryMap_of_mem _ g k hk]
    by_cases h : k = t
    · subst h
      by_cases hs : s ∈ (lookupLinks g k).leadsto
      · rw [if_pos rfl, if_pos hs]
      · rw [if_pos rfl, if_neg hs]
    · rw [if_neg h]
  · obtain ⟨e1, e2⟩ := lookupLinks_EntryMap_of_not_mem _ g k hk
    rw [e1, e2]

theorem pushDependson_dependson_self (g : Graph) (t s : String) (ht : t ∈ keys g) :
    s ∈ (lookupLinks (pushDependson g t s) t).dependson := by
  rw [pushDependson_eq_EntryMap, lookupLinks_EntryMap_of_mem _ g t ht]
  by_cases hs : s ∈ (lookupLinks g t).dependson
  · rw [if_pos rfl, if_pos hs]; exact hs
  · rw [if_pos rfl, if_neg hs]; simp

theorem pushLeadsto_leadsto_self (g : Graph) (t s : String) (ht : t ∈ keys g) :
    s ∈ (lookupLinks (pushLeadsto g t s) t).leadsto := by
  rw [pushLeadsto_eq_EntryMap, lookupLinks_EntryMap_of_mem _ g t ht]
  by_cases hs : s ∈ (lookupLinks g t).leadsto
  · rw [if_pos rfl, if_pos hs]; exact hs
  · rw [if_pos rfl, if_neg hs]; simp

theorem pushDependson_dependson_cases (g : Graph) (t s k x : String)
    (hx : x ∈ (lookupLinks (pushDependson g t s) k).dependson) :
    x ∈ (lookupLinks g k).dependson ∨ (x = s ∧ k = t) := by
  rw [pushDependson_eq_EntryMap] at hx
  by_cases hk : k ∈ keys g
  · rw [lookupLinks_EntryMap_of_mem _ g k hk] at hx
    by_cases h : k = t
    · subst h
      by_cases hs : s ∈ (lookupLinks g k).dependson
      · rw [if_pos rfl, if_pos hs] at hx; exact Or.inl hx
      · rw [if_pos rfl, if_neg hs] at hx
        simp only [List.mem_append, List.mem_singleton] at hx
        rcases hx with hx | hx
        · exact Or.inl hx
        · exact Or.inr ⟨hx, rfl⟩
    · rw [if_neg h] at hx; exact Or.inl hx
  · obtain ⟨e1, _⟩ := lookupLinks_EntryMap_of_not_mem _ g k hk
    rw [e1] at hx
    exact absurd hx (by simp [defaultLinks])

theorem pushLeadsto_leadsto_cases (g : Graph) (t s k x : String)
    (hx : x ∈ (lookupLinks (pushLeadsto g t s) k).leadsto) :
    x ∈ (lookupLinks g k).leadsto ∨ (x = s ∧ k = t) := by
  rw [pushLeadsto_eq_EntryMap] at hx
  by_cases hk : k ∈ keys g
  · rw [lookupLinks_EntryMap_of_mem _ g k hk] at hx
    by_cases h : k = t
    · subst h
      by_cases hs : s ∈ (lookupLinks g k).leadsto
      · rw [if_pos rfl, if_pos hs] at hx; exact Or.inl hx
      · rw [if_pos rfl, if_neg hs] at hx
        simp only [List.mem_append, List.mem_singleton] at hx
        rcases hx with hx | hx
        · exact Or.inl hx
        · exact Or.inr ⟨hx, rfl⟩
    · rw [if_neg h] at hx; exact Or.inl hx
  · obtain ⟨e1, _⟩ := lookupLinks_EntryMap_of_not_mem _ g k hk
    rw [e1] at hx
    exact absurd hx (by simp [defaultLinks])

/-! ### Effect of the rule-A and rule-B folds -/
theorem Extends.mem_dependson {g h : Graph} (he : Extends g h) {k x : String}
    (hx : x ∈ (lookupLinks g k).dependson) : x ∈ (lookupLinks h k).dependson :=
  ((he.2 k).2.1).subset hx

theorem Extends.mem_leadsto {g h : Graph} (he : Extends g h) {k x : String}
    (hx : x ∈ (lookupLinks g k).leadsto) : x ∈ (lookupLinks h k).leadsto :=
  ((he.2 k).1).subset hx

theorem pushDfold_extends (L : List String) (g : Graph) (N : String) :
    Extends g (L.foldl (fun h c => pushDependson h c N) g) :=
  extends_foldl _ (fun h c => extends_pushDependson h c N) L g

theorem pushLfold_extends (L : List String) (g : Graph) (N : String) :
    Extends g (L.foldl (fun h p => pushLeadsto h p N) g) :=
  extends_foldl _ (fun h p => extends_pushLeadsto h p N) L g

theorem pushDfold_leadsto (L : List String) (N : String) :
    ∀ (g : Graph) (k : String),
      (lookupLinks (L.foldl (fun h c => pushDependson h c N) g) k).leadsto =
        (lookupLinks g k).leadsto := by
  induction L with
  | nil => intro g k; rfl
  | cons c rest ih =>
    intro g k
    rw [List.foldl_cons, ih (pushDependson g c N) k, pushDependson_leadsto]

theorem pushLfold_dependson (L : List String) (N : String) :
    ∀ (g : Graph) (k : String),
      (lookupLinks (L.foldl (fun h p => pushLeadsto h p N) g) k).dependson =
        (lookupLinks g k).dependson := by
  induction L with
  | nil => intro g k; rfl
  | cons p rest ih =>
    intro g k
    rw [List.foldl_cons, ih (pushLeadsto g p N) k, pushLeadsto_dependson]

theorem pushDfold_dependson_cases (L : List String) (N : String) :
    ∀ (g : Graph) (k x : String),
      x ∈ (lookupLinks (L.foldl (fun h c => pushDependson h c N) g) k).dependson →
      x ∈ (lookupLinks g k).dependson ∨ (x = N ∧ k ∈ L) := by
  induction L with
  | nil => intro g k x hx; exact Or.inl hx
  | cons c rest ih =>
    intro g k x hx
    rw [List.foldl_cons] at hx
    rcases ih (pushDependson g c N) k x hx with h | ⟨h1, h2⟩
    · rcases pushDependson_dependson_cases g c N k x h with h' | ⟨h1, h2⟩
      · exact Or.inl h'
      · exact Or.inr ⟨h1, by simp [h2]⟩
    · exact Or.inr ⟨h1, by simp [h2]⟩

theorem pushLfold_leadsto_cases (L : List String) (N : String) :
    ∀ (g : Graph) (k x : String),
      x ∈ (lookupLinks (L.foldl (fun h p => pushLeadsto h p N) g) k).leadsto →
      x ∈ (lookupLinks g k).leadsto ∨ (x = N ∧ k ∈ L) := by
  induction L with
  | nil => intro g k x hx; exact Or.inl hx
  | cons p rest ih =>
    intro g k x hx
    rw [List.foldl_cons] at hx
    rcases ih (pushLeadsto g p N) k x hx with h | ⟨h1, h2⟩
    · rcases pushLeadsto_leadsto_cases g p N k x h with h' | ⟨h1, h2⟩
      · exact Or.inl h'
      · exact Or.inr ⟨h1, by simp [h2]⟩
    · exact Or.inr ⟨h1, by simp [h2]⟩

theorem pushDfold_covers (L : List String) (N : String) :
    ∀ (g : Graph) (B : String), B ∈ L → B ∈ keys g →
      N ∈ (lookupLinks (L.foldl (fun h c => pushDependson h c N) g) B).dependson := by
  induction L with
  | nil => intro g B hB; exact absurd hB (List.not_mem_nil B)
  | cons c rest ih =>
    intro g B hB hkeys
    rw [List.foldl_cons]
    rcases List.mem_cons.1 hB with h | h
    · subst h
      exact (pushDfold_extends rest (pushDependson g B N) N).mem_dependson
        (pushDependson_dependson_self g B N hkeys)
    · exact ih (pushDependson g c N) B h (by rw [keys_pushDependson]; exact hkeys)

theorem pushLfold_covers (L : List String) (N : String) :
    ∀ (g : Graph) (B : String), B ∈ L → B ∈ keys g →
      N ∈ (lookupLinks (L.foldl (fun h p => pushLeadsto h p N) g) B).leadsto := by
  induction L with
  | nil => intro g B hB; exact absurd hB (List.not_mem_nil B)
  | cons p rest ih =>
    intro g B hB hkeys
    rw [List.foldl_cons]
    rcases List.mem_cons.1 hB with h | h
    · subst h
      exact (pushLfold_extends rest (pushLeadsto g B N) N).mem_leadsto
        (pushLeadsto_leadsto_self g B N hkeys)
    · exact ih (pushLeadsto g p N) B h (by rw [keys_pushLeadsto]; exact hkeys)

theorem lookupLinks_of_not_mem (g : Graph) (A : String) (h : A ∉ keys g) :
    lookupLinks g A = defaultLinks := by
  cases hl : List.lookup A g with
  | none => unfold lookupLinks; rw [hl]; rfl
  | some b => exact absurd ((mem_keys_iff_lookup A g).2 ⟨b, hl⟩) h

theorem invPartial_init (g : Graph) : InvPartial g (keys g) := by
  intro A B _
  by_cases hA : A ∈ keys g
  · exact ⟨fun _ => Or.inr hA, fun _ => Or.inr hA⟩
  · rw [lookupLinks_of_not_mem g A hA]
    exact ⟨fun h => absurd h (by simp [defaultLinks]),
           fun h => absurd h (by simp [defaultLinks])⟩

theorem invPartial_step (g : Graph) (N : String) (rest : List String)
    (h : InvPartial g (N :: rest)) : InvPartial (inferStep g N) rest := by
  have hstep : inferStep g N =
      (lookupLinks ((lookupLinks g N).leadsto.foldl
          (fun h c => pushDependson h c N) g) N).dependson.foldl
        (fun h p => pushLeadsto h p N)
        ((lookupLinks g N).leadsto.foldl (fun h c => pushDependson h c N) g) := rfl
  set L := (lookupLinks g N).leadsto with hLdef
  set g1 := L.foldl (fun h c => pushDependson h c N) g with hg1def
  set L1 := (lookupLinks g1 N).dependson with hL1def
  set g2 := L1.foldl (fun h p => pushLeadsto h p N) g1 with hg2def
  rw [hstep]
  intro A B hB
  have hkeys1 : keys g1 = keys g := (pushDfold_extends L g N).1
  have hkeys2 : keys g2 = keys g1 := (pushLfold_extends L1 g1 N).1
  have hBg : B ∈ keys g := by rw [← hkeys1, ← hkeys2]; exact hB
  constructor
  · intro hBlead
    rcases pushLfold_leadsto_cases L1 N g1 A B hBlead with hc | ⟨hBN, hAL1⟩
    · rw [pushDfold_leadsto L N g A] at hc
      rcases (h A B hBg).1 hc with hdep | hrest
      · left
        rw [pushLfold_dependson L1 N g1 B]
        exact (pushDfold_extends L g N).mem_dependson hdep
      · rcases List.mem_cons.1 hrest with hAN | hr
        · left
          rw [hAN, pushLfold_dependson L1 N g1 B]
          rw [hAN] at hc
          exact pushDfold_covers L N g B hc hBg
        · exact Or.inr hr
    · left
      rw [hBN, pushLfold_dependson L1 N g1 N]
      exact hAL1
  · intro hBdep
    rw [pushLfold_dependson L1 N g1 A] at hBdep
    rcases pushDfold_dependson_cases L N g A B hBdep with hc | ⟨hBN, hAL⟩
    · rcases (h A B hBg).2 hc with hlead | hrest
      · left
        refine (pushLfold_extends L1 g1 N).mem_leadsto ?_
        rw [pushDfold_leadsto L N g B]
        exact hlead
      · rcases List.mem_cons.1 hrest with hAN | hr
        · left
          rw [hAN]
          rw [hAN] at hc
          have hBL1 : B ∈ L1 := (pushDfold_extends L g N).mem_dependson hc
          exact pushLfold_covers L1 N g1 B hBL1 (by rw [hkeys1]; exact hBg)
        · exact Or.inr hr
    · left
      rw [hBN]
      refine (pushLfold_extends L1 g1 N).mem_leadsto ?_
      rw [pushDfold_leadsto L N g N]
      exact hAL

theorem invPartial_fold (ns : List String) :
    ∀ g : Graph, InvPartial g ns → InvPartial (ns.foldl inferStep g) [] := by
  induction ns with
  | nil => intro g h; exact h
  | cons n t ih =>
    intro g h
    rw [List.foldl_cons]
    exact ih (inferStep g n) (invPartial_step g n t h)

theorem infer_invPartial (g : Graph) :
    InvPartial (inferBidirectionalLinks g) [] :=
  invPartial_fold (keys g) g (invPartial_init g)

/-- C3: after `inferBidirectionalLinks`, inverse-consistency holds for every
pair of documents `A, B` of the graph, not only directly declared edges: if
`B ∈ G[A].leadsto` then `A ∈ G[B].dependson`, and if `B ∈ G[A].dependson`
then `A ∈ G[B].leadsto`. -/
theorem infer_inverse_consistent (g : Graph) (A B : String)
    (_hA : A ∈ keys g) (hB : B ∈ keys g) :
    (B ∈ (lookupLinks (inferBidirectionalLinks g) A).leadsto →
      A ∈ (lookupLinks (inferBidirectionalLinks g) B).dependson) ∧
    (B ∈ (lookupLinks (inferBidirectionalLinks g) A).dependson →
      A ∈ (lookupLinks (inferBidirectionalLinks g) B).leadsto) := by
  have hBg : B ∈ keys (inferBidirectionalLinks g) := by
    rw [(extends_infer g).1]; exact hB
  obtain ⟨h1, h2⟩ := infer_invPartial g A B hBg
  constructor
  · intro hm
    rcases h1 hm with h | h
    · exact h
    · exact absurd h (List.not_mem_nil A)
  · intro hm
    rcases h2 hm with h | h
    · exact h
    · exact absurd h (List.not_mem_nil A)

/-- Witness for C3 on the spec scenario `{A: {leadsto: [B]}, B: {}}`. -/
theorem infer_inverse_consistent_witness :
    ("A" ∈ keys [("A", NoteLinks.mk "A" ["B"] [] []), ("B", NoteLinks.mk "B" [] [] [])] ∧
     "B" ∈ keys [("A", NoteLinks.mk "A" ["B"] [] []), ("B", NoteLinks.mk "B" [] [] [])]) ∧
    (("B" ∈ (lookupLinks (inferBidirectionalLinks
        [("A", NoteLinks.mk "A" ["B"] [] []), ("B", NoteLinks.mk "B" [] [] [])]) "A").leadsto →
      "A" ∈ (lookupLinks (inferBidirectionalLinks
        [("A", NoteLinks.mk "A" ["B"] [] []), ("B", NoteLinks.mk "B" [] [] [])]) "B").dependson) ∧
     ("B" ∈ (lookupLinks (inferBidirectionalLinks
        [("A", NoteLinks.mk "A" ["B"] [] []), ("B", NoteLinks.mk "B" [] [] [])]) "A").dependson →
      "A" ∈ (lookupLinks (inferBidirectionalLinks
        [("A", NoteLinks.mk "A" ["B"] [] []), ("B", NoteLinks.mk "B" [] [] [])]) "B").leadsto)) :=
  ⟨⟨by decide, by decide⟩,
   infer_inverse_consistent _ "A" "B" (by decide) (by decide)⟩

/-! ### Idempotence of the pass -/
theorem lookup_eq_of_mem_nodup (g : Graph) (hnd : (keys g).Nodup)
    {a : String} {b : NoteLinks} (hab : (a, b) ∈ g) :
    List.lookup a g = some b := by
  induction g with
  | nil => cases hab
  | cons e t ih =>
    obtain ⟨x, y⟩ := e
    have hndt : (keys t).Nodup := by
      simp only [keys, List.map_cons, List.nodup_cons] at hnd
      exact hnd.2
    rcases List.mem_cons.1 hab with hh | hh
    · obtain ⟨rfl, rfl⟩ := Prod.mk.injEq .. ▸ hh
      rw [lookup_cons, if_pos rfl]
    · have hax : a ≠ x := by
        intro he
        subst he
        have hmem : a ∈ keys t := List.mem_map_of_mem Prod.fst hh
        simp only [keys, List.map_cons, List.nodup_cons] at hnd
        exact hnd.1 hmem
      rw [lookup_cons, if_neg hax]
      exact ih hndt hh

theorem lookupLinks_eq_of_mem_nodup (g : Graph) (hnd : (keys g).Nodup)
    {a : String} {b : NoteLinks} (hab : (a, b) ∈ g) :
    lookupLinks g a = b := by
  unfold lookupLinks
  rw [lookup_eq_of_mem_nodup g hnd hab]
  rfl

theorem pushDependson_id (g : Graph) (hnd : (keys g).Nodup) (t N : String)
    (h : t ∈ keys g → N ∈ (lookupLinks g t).dependson) :
    pushDependson g t N = g := by
  unfold pushDependson
  have hcongr : ∀ e ∈ g,
      (if e.1 = t then
        (e.1, if N ∈ e.2.dependson then e.2
              else { e.2 with dependson := e.2.dependson ++ [N] })
       else e) = e := by
    intro e he
    by_cases het : e.1 = t
    · obtain ⟨a, b⟩ := e
      simp only at het
      subst het
      have hl : lookupLinks g a = b := lookupLinks_eq_of_mem_nodup g hnd he
      have hN : N ∈ b.dependson := by
        have := h (List.mem_map_of_mem Prod.fst he)
        rw [hl] at this
        exact this
      simp [hN]
    · simp [het]
  rw [List.map_congr_left hcongr]
  exact List.map_id' g

theorem pushLeadsto_id (g : Graph) (hnd : (keys g).Nodup) (t N : String)
    (h : t ∈ keys g → N ∈ (lookupLinks g t).leadsto) :
    pushLeadsto g t N = g := by
  unfold pushLeadsto
  have hcongr : ∀ e ∈ g,
      (if e.1 = t then
        (e.1, if N ∈ e.2.leadsto then e.2
              else { e.2 with leadsto := e.2.leadsto ++ [N] })
       else e) = e := by
    intro e he
    by_cases het : e.1 = t
    · obtain ⟨a, b⟩ := e
      simp only at het
      subst het
      have hl : lookupLinks g a = b := lookupLinks_eq_of_mem_nodup g hnd he
      have hN : N ∈ b.leadsto := by
        have := h (List.mem_map_of_mem Prod.fst he)
        rw [hl] at this
        exact this
      simp [hN]
    · simp [het]
  rw [List.map_congr_left hcongr]
  exact List.map_id' g

theorem foldl_fixed {α : Type} (step : Graph → α → Graph) (g : Graph)
    (L : List α) (h : ∀ x ∈ L, step g x = g) : L.foldl step g = g := by
  induction L with
  | nil => rfl
  | cons x t ih =>
    rw [List.foldl_cons, h x (List.mem_cons_self x t)]
    exact ih fun y hy => h y (List.mem_cons_of_mem x hy)

theorem inferStep_fixed (g : Graph) (hnd : (keys g).Nodup)
    (hinv : InvPartial g []) (N : String) : inferStep g N = g := by
  have hg1 : (lookupLinks g N).leadsto.foldl (fun h c => pushDependson h c N) g = g := by
    apply foldl_fixed
    intro c hc
    apply pushDependson_id g hnd c N
    intro hck
    rcases (hinv N c hck).1 hc with h | h
    · exact h
    · exact absurd h (List.not_mem_nil N)
  have hstep : inferStep g N =
      (lookupLinks ((lookupLinks g N).leadsto.foldl
          (fun h c => pushDependson h c N) g) N).dependson.foldl
        (fun h p => pushLeadsto h p N)
        ((lookupLinks g N).leadsto.foldl (fun h c => pushDependson h c N) g) := rfl
  rw [hstep, hg1]
  apply foldl_fixed
  intro p hp
  apply pushLeadsto_id g hnd p N
  intro hpk
  rcases (hinv N p hpk).2 hp with h | h
  · exact h
  · exact absurd h (List.not_mem_nil N)

/-- C2: bidirectional inference is idempotent — applying
`inferBidirectionalLinks` twice yields exactly the same graph as applying
it once (the host `Map` guarantees `Nodup` keys). -/
theorem infer_idempotent (g : Graph) (hnd : (keys g).Nodup) :
    inferBidirectionalLinks (inferBidirectionalLinks g) = inferBidirectionalLinks g := by
  have hnd' : (keys (inferBidirectionalLinks g)).Nodup := by
    rw [(extends_infer g).1]; exact hnd
  have hinv : InvPartial (inferBidirectionalLinks g) [] := infer_invPartial g
  show (keys (inferBidirectionalLinks g)).foldl inferStep (inferBidirectionalLinks g) =
    inferBidirectionalLinks g
  exact foldl_fixed inferStep (inferBidirectionalLinks g) _
    fun N _ => inferStep_fixed (inferBidirectionalLinks g) hnd' hinv N

/-- Witness for C2 on the spec scenario `{A: {leadsto: [B]}, B: {}}`. -/
theorem infer_idempotent_witness :
    (keys [("A", NoteLinks.mk "A" ["B"] [] []), ("B", NoteLinks.mk "B" [] [] [])]).Nodup ∧
    inferBidirectionalLinks (inferBidirectionalLinks
      [("A", NoteLinks.mk "A" ["B"] [] []), ("B", NoteLinks.mk "B" [] [] [])]) =
      inferBidirectionalLinks
        [("A", NoteLinks.mk "A" ["B"] [] []), ("B", NoteLinks.mk "B" [] [] [])] :=
  ⟨by decide, infer_idempotent _ (by decide)⟩

/-- C9 counterexample: at separation `0.01` along the x-axis — nonzero but
near zero — the squared distance `1/10000` is truthy, so `|| 0.01` does NOT
floor it: the divisor is below `0.01` and the force magnitude exceeds
`REPULSION / 0.01 = 550000`. -/
theorem repulsion_divisor_not_floored_cex :
    repulsionD2 (0, 0) (1/100, 0) = 1/10000 ∧
    ¬ ((1:ℚ)/100 ≤ repulsionD2 (0, 0) (1/100, 0)) ∧
    repulsionMag (0, 0) (1/100, 0) = 55000000 := by
  refine ⟨?_, ?_, ?_⟩ <;> norm_num [repulsionD2, repulsionMag, jsOrQ, REPULSION]

/-- C9 amended: `|| 0.01` substitutes `0.01` only when the squared distance
is exactly zero; hence the divisor is positive for every pair of positions
(the division never blows up to an undefined value), but for a nonzero
separation the divisor is the raw squared distance itself, with no lower
bound. -/
theorem repulsion_divisor_pos (a b : ℚ × ℚ) :
    0 < repulsionD2 a b ∧
    ((b.1 - a.1) * (b.1 - a.1) + (b.2 - a.2) * (b.2 - a.2) ≠ 0 →
      repulsionD2 a b = (b.1 - a.1) * (b.1 - a.1) + (b.2 - a.2) * (b.2 - a.2)) := by
  constructor
  · unfold repulsionD2 jsOrQ
    by_cases h : (b.1 - a.1) * (b.1 - a.1) + (b.2 - a.2) * (b.2 - a.2) = 0
    · simp only [h, if_pos rfl]
      norm_num
    · simp only [if_neg h]
      have h0 : 0 ≤ (b.1 - a.1) * (b.1 - a.1) + (b.2 - a.2) * (b.2 - a.2) :=
        add_nonneg (mul_self_nonneg _) (mul_self_nonneg _)
      exact lt_of_le_of_ne h0 (Ne.symm h)
  · intro h
    simp [repulsionD2, jsOrQ, h]

/-- C6 counterexample: the list `[" "]` normalizes to `[" "]` — the
whitespace-only entry is NOT dropped (`filter(Boolean)` drops only `""`),
and the falsy scalar `0` normalizes to `[]`, not a singleton. -/
theorem toArray_blank_retained_cex :
    toArray (.arr [.str " "]) = [" "] ∧
    isBlankStr " " = true ∧
    toArray (.scalar (.num 0)) = [] := by
  refine ⟨?_, ?_, ?_⟩ <;> decide

theorem mem_keys_of_edge {s : Snap} {a b : String} (h : edgeOf s a b) :
    a ∈ s.map Prod.fst := by
  unfold edgeOf lookupSnap at h
  cases hl : List.lookup a s with
  | none => rw [hl] at h; exact absurd h (List.not_mem_nil b)
  | some l => exact (mem_keys_iff_lookup a s).2 ⟨l, hl⟩

theorem walk_append {s : Snap} {f x t : String} :
    ∀ {l1 l2 : List String}, Walk s f l1 x → Walk s x l2 t →
      Walk s f (l1 ++ l2) t := by
  intro l1
  induction l1 generalizing f with
  | nil =>
    intro l2 h1 h2
    have : f = x := h1
    rw [List.nil_append, this]
    exact h2
  | cons n l ih =>
    intro l2 h1 h2
    obtain ⟨he, hw⟩ := h1
    exact ⟨he, ih hw h2⟩

theorem walk_split {s : Snap} {f t : String} :
    ∀ {l1 l2 : List String}, Walk s f (l1 ++ l2) t →
      ∃ x, Walk s f l1 x ∧ Walk s x l2 t := by
  intro l1
  induction l1 generalizing f with
  | nil => intro l2 h; exact ⟨f, rfl, h⟩
  | cons n l ih =>
    intro l2 h
    obtain ⟨he, hw⟩ := h
    obtain ⟨x, hx1, hx2⟩ := ih hw
    exact ⟨x, ⟨he, hx1⟩, hx2⟩

theorem walk_last {s : Snap} {f t : String} :
    ∀ {l : List String}, Walk s f l t → ∀ (hne : l ≠ []), l.getLast hne = t := by
  intro l
  induction l generalizing f with
  | nil => intro _ hne; exact absurd rfl hne
  | cons n l ih =>
    intro h _
    obtain ⟨_, hw⟩ := h
    cases l with
    | nil => exact hw
    | cons m l' => exact ih hw (by simp)

theorem walk_mono {s1 s2 : Snap}
    (hsub : ∀ k x, x ∈ lookupSnap s2 k → x ∈ lookupSnap s1 k) {f t : String} :
    ∀ {l : List String}, Walk s2 f l t → Walk s1 f l t := by
  intro l
  induction l generalizing f with
  | nil => intro h; exact h
  | cons n l ih =>
    intro h
    obtain ⟨he, hw⟩ := h
    exact ⟨hsub f n he, ih hw⟩

/-- Soundness of the search: a `true` answer exhibits a nonempty walk. -/
theorem reach_sound {s : Snap} {t : String} :
    ∀ (fuel : Nat) (f : String) (vis : List String),
      reachAux s fuel f t vis = true → ∃ l, l ≠ [] ∧ Walk s f l t := by
  intro fuel
  induction fuel with
  | zero => intro f vis h; exact absurd h (by simp [reachAux])
  | succ n ih =>
    intro f vis h
    rw [reachAux] at h
    by_cases hv : f ∈ vis
    · rw [if_pos hv] at h; exact absurd h (by simp)
    · rw [if_neg hv] at h
      by_cases ht : t ∈ lookupSnap s f
      · exact ⟨[t], by simp, ht, rfl⟩
      · rw [if_neg ht] at h
        obtain ⟨x, hx, hr⟩ := List.any_eq_true.1 h
        obtain ⟨l, hl, hw⟩ := ih x (f :: vis) hr
        exact ⟨x :: l, by simp, hx, hw⟩

/-- Fewer edges, fewer reachable nodes (same fuel). -/
theorem reach_mono {s1 s2 : Snap}
    (hsub : ∀ k x, x ∈ lookupSnap s2 k → x ∈ lookupSnap s1 k) {t : String} :
    ∀ (fuel : Nat) (f : String) (vis : List String),
      reachAux s2 fuel f t vis = true → reachAux s1 fuel f t vis = true := by
  intro fuel
  induction fuel with
  | zero => intro f vis h; exact absurd h (by simp [reachAux])
  | succ n ih =>
    intro f vis h
    rw [reachAux] at h ⊢
    by_cases hv : f ∈ vis
    · rw [if_pos hv] at h; exact absurd h (by simp)
    · rw [if_neg hv] at h ⊢
      by_cases ht1 : t ∈ lookupSnap s1 f
      · rw [if_pos ht1]
      · rw [if_neg ht1]
        have ht2 : t ∉ lookupSnap s2 f := fun hc => ht1 (hsub f t hc)
        rw [if_neg ht2] at h
        obtain ⟨x, hx, hr⟩ := List.any_eq_true.1 h
        exact List.any_eq_true.2 ⟨x, hsub f x hx, ih x (f :: vis) hr⟩

theorem length_filter_le_of_imp {α : Type} (l : List α) (p q : α → Bool)
    (h : ∀ x, p x = true → q x = true) :
    (l.filter p).length ≤ (l.filter q).length := by
  induction l with
  | nil => simp
  | cons a t ih =>
    by_cases hp : p a = true
    · rw [List.filter_cons_of_pos hp, List.filter_cons_of_pos (h a hp)]
      simpa using ih
    · rw [List.filter_cons_of_neg (by simpa using hp)]
      by_cases hq : q a = true
      · rw [List.filter_cons_of_pos hq]
        exact ih.trans (by simp)
      · rw [List.filter_cons_of_neg (by simpa using hq)]
        exact ih

theorem countFree_cons_lt (names : List String) (vis : List String) (f : String)
    (hf : f ∈ names) (hv : f ∉ vis) :
    (names.filter fun k => decide (k ∉ f :: vis)).length <
      (names.filter fun k => decide (k ∉ vis)).length := by
  induction names with
  | nil => cases hf
  | cons a t ih =>
    have himp : ∀ x : String, decide (x ∉ f :: vis) = true → decide (x ∉ vis) = true := by
      intro x hx
      simp only [decide_eq_true_eq] at hx ⊢
      exact fun hc => hx (List.mem_cons_of_mem f hc)
    by_cases haf : a = f
    · subst haf
      rw [List.filter_cons_of_neg (by simp), List.filter_cons_of_pos (by simpa using hv)]
      have := length_filter_le_of_imp t _ _ himp
      simp only [List.length_cons]
      omega
    · rcases List.mem_cons.1 hf with h | h
      · exact absurd h.symm haf
      · by_cases hav : a ∈ vis
        · rw [List.filter_cons_of_neg (by simp [hav]),
              List.filter_cons_of_neg (by simp [hav])]
          exact ih h
        · rw [List.filter_cons_of_pos (by simp [haf, hav]),
              List.filter_cons_of_pos (by simpa using hav)]
          simpa using ih h

theorem countFree_lt (s : Snap) (vis : List String) (f : String)
    (hf : f ∈ s.map Prod.fst) (hv : f ∉ vis) :
    countFree s (f :: vis) < countFree s vis :=
  countFree_cons_lt (s.map Prod.fst) vis f hf hv

theorem dropLast_append_cons_ne_nil {α : Type} (l1 l2 : List α) (f : α)
    (h : l2 ≠ []) : (l1 ++ f :: l2).dropLast = l1 ++ f :: l2.dropLast := by
  rw [List.dropLast_append_cons]
  cases l2 with
  | nil => exact absurd rfl h
  | cons a t => simp

/-- Completeness of the search: any nonempty walk whose pre-target nodes
avoid `visited` is found, given fuel at least `countFree + 1`.  The
induction is on walk length; when the start node recurs among the walk's
pre-target nodes, the walk's suffix from that recurrence is a shorter
witness at the same node. -/
theorem reach_complete {s : Snap} {t : String} :
    ∀ (k : Nat) (l : List String) (f : String) (vis : List String) (fuel : Nat),
      l.length ≤ k → Walk s f l t → l ≠ [] → f ∉ vis →
      (∀ n ∈ l.dropLast, n ∉ vis) → countFree s vis + 1 ≤ fuel →
      reachAux s fuel f t vis = true := by
  intro k
  induction k with
  | zero =>
    intro l f vis fuel hlen _ hne
    interval_cases hl : l.length
    · exact absurd (List.length_eq_zero.1 hl) hne
  | succ k ih =>
    intro l f vis fuel hlen hw hne hfv hdrop hfuel
    obtain ⟨x, l', rfl⟩ : ∃ x l', l = x :: l' := by
      cases l with
      | nil => exact absurd rfl hne
      | cons x l' => exact ⟨x, l', rfl⟩
    obtain ⟨hex, hwx⟩ := hw
    obtain ⟨m, rfl⟩ : ∃ m, fuel = m + 1 := ⟨fuel - 1, by omega⟩
    by_cases hl' : l' = []
    · subst hl'
      have hxt : x = t := hwx
      subst hxt
      have hex' : x ∈ lookupSnap s f := hex
      rw [reachAux, if_neg hfv]
      simp [hex']
    · have hdl : (x :: l').dropLast = x :: l'.dropLast := by
        cases l' with
        | nil => exact absurd rfl hl'
        | cons a t' => rfl
      by_cases hfin : f ∈ (x :: l').dropLast
      · -- jump to the last part of the walk after a recurrence of `f`
        obtain ⟨l1, l2, hsplit, hl2ne⟩ :
            ∃ l1 l2, x :: l' = l1 ++ f :: l2 ∧ l2 ≠ [] := by
          rw [hdl] at hfin
          obtain ⟨u, v, huv⟩ := List.append_of_mem hfin
          have hfull : x :: l' =
              (x :: l').dropLast ++ [(x :: l').getLast (by simp)] :=
            (List.dropLast_append_getLast _).symm
          refine ⟨u, v ++ [(x :: l').getLast (by simp)], ?_, by simp⟩
          conv_lhs => rw [hfull]
          rw [hdl, huv]
          simp
        have hw2 : Walk s f l2 t := by
          have hw' : Walk s f (l1 ++ f :: l2) t := by rw [← hsplit]; exact ⟨hex, hwx⟩
          obtain ⟨y, _, hy2⟩ := walk_split hw'
          exact hy2.2
        have hlen2 : l2.length ≤ k := by
          have hc : (x :: l').length = (l1 ++ f :: l2).length :=
            congrArg List.length hsplit
          rw [List.length_append, List.length_cons, List.length_cons] at hc
          rw [List.length_cons] at hlen
          omega
        have hdrop2 : ∀ n ∈ l2.dropLast, n ∉ vis := by
          intro n hn
          apply hdrop
          rw [hsplit, dropLast_append_cons_ne_nil l1 l2 f hl2ne]
          simp [hn]
        exact ih l2 f vis (m + 1) hlen2 hw2 hl2ne hfv hdrop2 hfuel
      · -- descend into the first successor
        rw [reachAux, if_neg hfv]
        by_cases ht : t ∈ lookupSnap s f
        · rw [if_pos ht]
        · rw [if_neg ht]
          have hxd : x ∈ (x :: l').dropLast := by rw [hdl]; simp
          have hxf : x ≠ f := fun hc => hfin (hc ▸ hxd)
          have hxv : x ∉ vis := hdrop x hxd
          refine List.any_eq_true.2 ⟨x, hex, ?_⟩
          apply ih l' x (f :: vis) m (by simpa using hlen) hwx hl'
          · intro hc
            rcases List.mem_cons.1 hc with hc | hc
            · exact hxf hc
            · exact hxv hc
          · intro n hn
            have hnd : n ∈ (x :: l').dropLast := by
              rw [hdl]
              exact List.mem_cons_of_mem x hn
            intro hc
            rcases List.mem_cons.1 hc with hc | hc
            · exact hfin (hc ▸ hnd)
            · exact hdrop n hnd hc
          · have hfk : f ∈ s.map Prod.fst := mem_keys_of_edge hex
            have := countFree_lt s vis f hfk hfv
            omega

/-! ### Acyclic graphs: walks are simple and bounded -/
theorem getLast_append_singleton {α : Type} (l : List α) (a : α)
    (h : l ++ [a] ≠ []) : (l ++ [a]).getLast h = a := by
  simp [List.getLast_append]

theorem exists_dup_split {α : Type} :
    ∀ (l : List α), ¬ l.Nodup →
      ∃ (a : α) (l1 l2 l3 : List α), l = l1 ++ a :: l2 ++ a :: l3 := by
  intro l
  induction l with
  | nil => intro h; exact absurd List.nodup_nil h
  | cons x t ih =>
    intro h
    by_cases hx : x ∈ t
    · obtain ⟨u, v, huv⟩ := List.append_of_mem hx
      exact ⟨x, [], u, v, by rw [huv]; simp⟩
    · have hnt : ¬ t.Nodup := fun hn => h (List.nodup_cons.2 ⟨hx, hn⟩)
      obtain ⟨a, l1, l2, l3, heq⟩ := ih hnt
      exact ⟨a, x :: l1, l2, l3, by rw [heq]; simp⟩

theorem walk_pretarget_keys {s : Snap} {t : String} :
    ∀ (l : List String) (f : String), Walk s f l t → l ≠ [] →
      ∀ n ∈ f :: l.dropLast, n ∈ s.map Prod.fst := by
  intro l
  induction l with
  | nil => intro f _ hne; exact absurd rfl hne
  | cons x l' ih =>
    intro f hw _ n hn
    obtain ⟨hex, hwx⟩ := hw
    cases l' with
    | nil =>
      simp only [List.dropLast_single, List.mem_singleton] at hn
      rw [hn]
      exact mem_keys_of_edge hex
    | cons y l'' =>
      rcases List.mem_cons.1 hn with rfl | hn'
      · exact mem_keys_of_edge hex
      · exact ih x hwx (by simp) n hn'

/-- No nonempty walk returns to its start in an acyclic snapshot (via the
completeness of the search and the acyclicity hypothesis stated on it). -/
theorem acyclic_no_cycle_walk {s : Snap} (hacyc : AcyclicSnap s) :
    ∀ (y : String) (m : List String), m ≠ [] → ¬ Walk s y m y := by
  intro y m hne hw
  have hcf : countFree s [] = s.length := by
    simp [countFree]
  have hreach : reachAux s (s.length + 1) y y [] = true := by
    apply reach_complete m.length m y [] (s.length + 1) le_rfl hw hne
      (by simp) (by simp) (by omega)
  have hy : y ∈ s.map Prod.fst := by
    obtain ⟨m0, m', rfl⟩ : ∃ m0 m', m = m0 :: m' := by
      cases m with
      | nil => exact absurd rfl hne
      | cons m0 m' => exact ⟨m0, m', rfl⟩
    exact mem_keys_of_edge hw.1
  have := hacyc y hy
  rw [isReachableLeadsto] at this
  rw [this] at hreach
  exact Bool.false_ne_true hreach

theorem walk_pretarget_nodup {s : Snap} (hacyc : AcyclicSnap s) {t : String}
    (l : List String) (f : String) (hw : Walk s f l t) (hne : l ≠ []) :
    (f :: l.dropLast).Nodup := by
  by_contra hnd
  obtain ⟨y, l1, l2, l3, heq⟩ := exists_dup_split _ hnd
  have hlast : l.getLast hne = t := walk_last hw hne
  have hfull : l = l.dropLast ++ [t] := by
    conv_lhs => rw [← List.dropLast_append_getLast hne]
    rw [hlast]
  cases l1 with
  | nil =>
    simp only [List.nil_append] at heq
    obtain ⟨hfy, hdl⟩ : f = y ∧ l.dropLast = l2 ++ y :: l3 := by
      refine ⟨?_, ?_⟩ <;> injection heq
    have hl : l = (l2 ++ [y]) ++ (l3 ++ [t]) := by
      rw [hfull, hdl]; simp
    rw [hl] at hw
    obtain ⟨z, hz1, _⟩ := walk_split hw
    have hzy : z = y := by
      have := walk_last hz1 (by simp)
      rw [getLast_append_singleton] at this
      exact this.symm
    rw [hzy, hfy] at hz1
    exact acyclic_no_cycle_walk hacyc y (l2 ++ [y]) (by simp) hz1
  | cons u l1' =>
    obtain ⟨hfu, hdl⟩ : f = u ∧ l.dropLast = l1' ++ y :: l2 ++ y :: l3 := by
      refine ⟨?_, ?_⟩ <;> injection heq
    have hl : l = (l1' ++ [y]) ++ ((l2 ++ [y]) ++ (l3 ++ [t])) := by
      rw [hfull, hdl]; simp
    rw [hl] at hw
    obtain ⟨z, hz1, hz2⟩ := walk_split hw
    have hzy : z = y := by
      have := walk_last hz1 (by simp)
      rw [getLast_append_singleton] at this
      exact this.symm
    rw [hzy] at hz2
    obtain ⟨w, hw1, _⟩ := walk_split hz2
    have hwy : w = y := by
      have := walk_last hw1 (by simp)
      rw [getLast_append_singleton] at this
      exact this.symm
    rw [hwy] at hw1
    exact acyclic_no_cycle_walk hacyc y (l2 ++ [y]) (by simp) hw1

theorem walk_length_le {s : Snap} (hacyc : AcyclicSnap s) {t : String}
    (l : List String) (f : String) (hw : Walk s f l t) (hne : l ≠ []) :
    l.length ≤ s.length := by
  have hnd := walk_pretarget_nodup hacyc l f hw hne
  have hkeys := walk_pretarget_keys l f hw hne
  have h1 : (f :: l.dropLast).length ≤ (s.map Prod.fst).length := by
    have hc1 : (f :: l.dropLast).toFinset.card = (f :: l.dropLast).length :=
      List.toFinset_card_of_nodup hnd
    have hsub : (f :: l.dropLast).toFinset ⊆ (s.map Prod.fst).toFinset := by
      intro a ha
      rw [List.mem_toFinset] at ha ⊢
      exact hkeys a ha
    calc (f :: l.dropLast).length = (f :: l.dropLast).toFinset.card := hc1.symm
      _ ≤ (s.map Prod.fst).toFinset.card := Finset.card_le_card hsub
      _ ≤ (s.map Prod.fst).length := List.toFinset_card_le _
  rw [List.length_cons, List.length_dropLast, List.length_map] at h1
  have hpos : 0 < l.length := List.length_pos.2 hne
  omega

theorem nat_exists_greatest (P : Nat → Prop) :
    ∀ (B : Nat), (∀ n, P n → n ≤ B) → (∃ n, P n) →
      ∃ n, P n ∧ ∀ m, P m → m ≤ n := by
  intro B
  induction B with
  | zero =>
    intro hB hex
    obtain ⟨n, hn⟩ := hex
    exact ⟨n, hn, fun m hm => by have h1 := hB m hm; omega⟩
  | succ B ih =>
    intro hB hex
    by_cases hPB : P (B + 1)
    · exact ⟨B + 1, hPB, hB⟩
    · apply ih
      · intro n hn
        have h1 := hB n hn
        have h2 : n ≠ B + 1 := fun hc => hPB (hc ▸ hn)
        omega
      · exact hex

/-! ### What one reduction step does to the graph -/
theorem lookupSnap_snapshotOf (g : Graph) (A : String) :
    lookupSnap (snapshotOf g) A = (lookupLinks g A).leadsto := by
  unfold lookupSnap snapshotOf lookupLinks
  rw [lookup_mapVal (fun _ b => b.leadsto) g A]
  cases List.lookup A g <;> rfl

theorem reduceStep_eq_entryMap (s : Snap) (h : Graph) (A : String) :
    reduceStep s h A =
      if (lookupSnap s A).filter (fun noteC => redundantEdge s A noteC) = [] then h
      else EntryMap (rsF s A) h := rfl

theorem rsF_leadsto (s : Snap) (A k : String) (l : NoteLinks) :
    (rsF s A k l).leadsto =
      if k = A then
        l.leadsto.filter fun n =>
          decide (n ∉ (lookupSnap s A).filter fun noteC => redundantEdge s A noteC)
      else l.leadsto := by
  unfold rsF
  by_cases hk : k ∈ (lookupSnap s A).filter fun noteC => redundantEdge s A noteC
  · rw [if_pos hk]
    by_cases hA : k = A <;> simp [hA]
  · rw [if_neg hk]
    by_cases hA : k = A <;> simp [hA]

theorem reduceStep_leadsto (s : Snap) (h : Graph) (A k : String) :
    (lookupLinks (reduceStep s h A) k).leadsto =
      if k = A then
        (lookupLinks h k).leadsto.filter fun n =>
          decide (n ∉ (lookupSnap s A).filter fun noteC => redundantEdge s A noteC)
      else (lookupLinks h k).leadsto := by
  rw [reduceStep_eq_entryMap]
  by_cases htr : (lookupSnap s A).filter (fun noteC => redundantEdge s A noteC) = []
  · rw [if_pos htr]
    by_cases hA : k = A
    · rw [if_pos hA, htr]
      have : ∀ n ∈ (lookupLinks h k).leadsto, decide (n ∉ ([] : List String)) = true := by
        intro n _; simp
      rw [List.filter_eq_self.2 this]
    · rw [if_neg hA]
  · rw [if_neg htr]
    by_cases hk : k ∈ keys h
    · rw [lookupLinks_EntryMap_of_mem _ _ _ hk, rsF_leadsto]
    · obtain ⟨e1, e2⟩ := lookupLinks_EntryMap_of_not_mem _ h k hk
      rw [e1, e2]
      by_cases hA : k = A <;> simp [hA, defaultLinks]

theorem keys_reduceStep (s : Snap) (h : Graph) (A : String) :
    keys (reduceStep s h A) = keys h := by
  rw [reduceStep_eq_entryMap]
  by_cases htr : (lookupSnap s A).filter (fun noteC => redundantEdge s A noteC) = []
  · rw [if_pos htr]
  · rw [if_neg htr]; exact keys_EntryMap _ h

theorem length_foldl_reduceStep (s : Snap) :
    ∀ (todo : List String) (h : Graph),
      (todo.foldl (reduceStep s) h).length = h.length := by
  intro todo
  induction todo with
  | nil => intro h; rfl
  | cons A todo' ih =>
    intro h
    rw [List.foldl_cons, ih]
    have := congrArg List.length (keys_reduceStep s h A)
    simpa [keys] using this

theorem not_mem_toRemove_iff (s : Snap) (A C : String)
    (hC : C ∈ lookupSnap s A) :
    decide (C ∉ (lookupSnap s A).filter fun x => redundantEdge s A x) =
      !(redundantEdge s A C) := by
  by_cases hr : redundantEdge s A C = true
  · simp [List.mem_filter, hC, hr]
  · simp only [Bool.not_eq_true] at hr
    simp [List.mem_filter, hr]

theorem reduce_fold_char (g0 : Graph) (s : Snap) (hs : s = snapshotOf g0) :
    ∀ (todo done : List String) (h : Graph),
      (done ++ todo).Nodup →
      (∀ A ∈ done, (lookupLinks h A).leadsto =
        (lookupLinks g0 A).leadsto.filter fun C => !(redundantEdge s A C)) →
      (∀ A, A ∉ done → (lookupLinks h A).leadsto = (lookupLinks g0 A).leadsto) →
      (∀ A ∈ done ++ todo,
        (lookupLinks (todo.foldl (reduceStep s) h) A).leadsto =
          (lookupLinks g0 A).leadsto.filter fun C => !(redundantEdge s A C)) ∧
      (∀ A, A ∉ done ++ todo →
        (lookupLinks (todo.foldl (reduceStep s) h) A).leadsto =
          (lookupLinks g0 A).leadsto) := by
  intro todo
  induction todo with
  | nil =>
    intro done h _ hdone hout
    constructor
    · intro A hA
      exact hdone A (by simpa using hA)
    · intro A hA
      exact hout A (by simpa using hA)
  | cons A0 todo' ih =>
    intro done h hnd hdone hout
    rw [List.foldl_cons]
    have hA0notdone : A0 ∉ done := by
      intro hc
      have : ¬ (done ++ A0 :: todo').Nodup := by
        intro hn
        have h2 := List.disjoint_of_nodup_append hn
        exact h2 hc (List.mem_cons_self A0 todo')
      exact this hnd
    have hnd' : ((done ++ [A0]) ++ todo').Nodup := by
      have : (done ++ [A0]) ++ todo' = done ++ A0 :: todo' := by simp
      rw [this]
      exact hnd
    have hdone' : ∀ A ∈ done ++ [A0],
        (lookupLinks (reduceStep s h A0) A).leadsto =
          (lookupLinks g0 A).leadsto.filter fun C => !(redundantEdge s A C) := by
      intro A hA
      rcases List.mem_append.1 hA with hA | hA
      · have hAA0 : A ≠ A0 := fun hc => hA0notdone (hc ▸ hA)
        rw [reduceStep_leadsto, if_neg hAA0]
        exact hdone A hA
      · have hAA0 : A = A0 := by simpa using hA
        rw [reduceStep_leadsto, if_pos hAA0, hout A (hAA0 ▸ hA0notdone)]
        subst hAA0
        apply List.filter_congr
        intro C hC
        have hCs : C ∈ lookupSnap s A := by
          rw [hs, lookupSnap_snapshotOf]
          exact hC
        exact not_mem_toRemove_iff s A C hCs
    have hout' : ∀ A, A ∉ done ++ [A0] →
        (lookupLinks (reduceStep s h A0) A).leadsto =
          (lookupLinks g0 A).leadsto := by
      intro A hA
      rw [List.mem_append] at hA
      push_neg at hA
      have hAA0 : A ≠ A0 := by
        intro hc
        exact hA.2 (by simp [hc])
      rw [reduceStep_leadsto, if_neg hAA0]
      exact hout A hA.1
    obtain ⟨hc1, hc2⟩ := ih (done ++ [A0]) (reduceStep s h A0) hnd' hdone' hout'
    constructor
    · intro A hA
      apply hc1
      rcases List.mem_append.1 hA with hA | hA
      · simp [hA]
      · rcases List.mem_cons.1 hA with hA | hA
        · simp [hA]
        · simp [hA]
    · intro A hA
      apply hc2
      intro hc
      apply hA
      rcases List.mem_append.1 hc with hc | hc
      · rcases List.mem_append.1 hc with hc | hc
        · exact List.mem_append.2 (Or.inl hc)
        · refine List.mem_append.2 (Or.inr ?_)
          have : A = A0 := by simpa using hc
          simp [this]
      · exact List.mem_append.2 (Or.inr (List.mem_cons_of_mem A0 hc))

/-- The leadsto arrays after `applyTransitiveReduction`: exactly those
original targets that are not redundant with respect to the original
snapshot. -/
theorem reduction_leadsto_char (g : Graph) (hnd : (keys g).Nodup) (A : String) :
    (lookupLinks (applyTransitiveReduction g) A).leadsto =
      (lookupLinks g A).leadsto.filter
        fun C => !(redundantEdge (snapshotOf g) A C) := by
  have h := reduce_fold_char g (snapshotOf g) rfl (keys g) [] g
    (by simpa using hnd) (by simp) (fun A _ => rfl)
  by_cases hA : A ∈ keys g
  · exact h.1 A (by simpa using hA)
  · have h2 := h.2 A (by simpa using hA)
    rw [show applyTransitiveReduction g =
      (keys g).foldl (reduceStep (snapshotOf g)) g from rfl]
    rw [h2, lookupLinks_of_not_mem g A hA]
    simp [defaultLinks]

/-! ### C1 / C4: transitive reduction, reachability and fixpoint -/
theorem walk_first_broken {s1 s2 : Snap} {t : String} :
    ∀ (l : List String) (f : String), Walk s1 f l t → ¬ Walk s2 f l t →
      ∃ l1 a b l2, l = l1 ++ b :: l2 ∧ Walk s1 f l1 a ∧ edgeOf s1 a b ∧
        ¬ edgeOf s2 a b ∧ Walk s1 b l2 t := by
  intro l
  induction l with
  | nil => intro f hw hno; exact absurd hw hno
  | cons x l' ih =>
    intro f hw hno
    obtain ⟨hex, hwx⟩ := hw
    by_cases he2 : edgeOf s2 f x
    · have hno' : ¬ Walk s2 x l' t := fun hc => hno ⟨he2, hc⟩
      obtain ⟨l1, a, b, l2, hsplit, hwa, hab, hnab, hwb⟩ := ih x hwx hno'
      exact ⟨x :: l1, a, b, l2, by rw [hsplit]; simp, ⟨hex, hwa⟩, hab, hnab, hwb⟩
    · exact ⟨[], f, x, l', rfl, rfl, hex, he2, hwx⟩

theorem snap_reduction_sub (g : Graph) (hnd : (keys g).Nodup) :
    ∀ k x, x ∈ lookupSnap (snapshotOf (applyTransitiveReduction g)) k →
      x ∈ lookupSnap (snapshotOf g) k := by
  intro k x hx
  rw [lookupSnap_snapshotOf, reduction_leadsto_char g hnd k] at hx
  rw [lookupSnap_snapshotOf]
  exact (List.mem_filter.1 hx).1

theorem snap_reduction_length (g : Graph) :
    (snapshotOf (applyTransitiveReduction g)).length = (snapshotOf g).length := by
  show (List.map _ (applyTransitiveReduction g)).length = (List.map _ g).length
  rw [List.length_map, List.length_map]
  exact length_foldl_reduceStep (snapshotOf g) (keys g) g

/-- A removed edge was redundant: present in the original lookup, absent
from the reduced one. -/
theorem removed_edge_redundant (g : Graph) (hnd : (keys g).Nodup)
    (a b : String) (hb1 : b ∈ lookupSnap (snapshotOf g) a)
    (hb2 : b ∉ lookupSnap (snapshotOf (applyTransitiveReduction g)) a) :
    redundantEdge (snapshotOf g) a b = true := by
  by_contra hred
  simp only [Bool.not_eq_true] at hred
  apply hb2
  rw [lookupSnap_snapshotOf, reduction_leadsto_char g hnd a]
  rw [lookupSnap_snapshotOf] at hb1
  exact List.mem_filter.2 ⟨hb1, by rw [hred]; rfl⟩

/-- C4: for every acyclic graph (no LeadsTo cycle), `applyTransitiveReduction`
is a fixpoint after one pass: applying it twice yields the same graph (hence
the same edge set) as applying it once.  (As the proof shows, acyclicity is
not even needed: a second pass never finds a new redundancy because its
snapshot has fewer edges and reachability is monotone.) -/
theorem reduction_fixpoint (g : Graph) (hnd : (keys g).Nodup)
    (_hacyc : AcyclicSnap (snapshotOf g)) :
    applyTransitiveReduction (applyTransitiveReduction g) =
      applyTransitiveReduction g := by
  have hsub := snap_reduction_sub g hnd
  have hlen := snap_reduction_length g
  have hfix : ∀ A, reduceStep (snapshotOf (applyTransitiveReduction g))
      (applyTransitiveReduction g) A = applyTransitiveReduction g := by
    intro A
    have htr : (lookupSnap (snapshotOf (applyTransitiveReduction g)) A).filter
        (fun noteC => redundantEdge (snapshotOf (applyTransitiveReduction g)) A noteC)
        = [] := by
      rw [List.filter_eq_nil_iff]
      intro C hC
      have hh := hC
      rw [lookupSnap_snapshotOf, reduction_leadsto_char g hnd A] at hh
      have hC1 := (List.mem_filter.1 hh).2
      intro hred
      obtain ⟨B, hB, hcond⟩ := List.any_eq_true.1 hred
      rw [Bool.and_eq_true] at hcond
      obtain ⟨hBC, hreach2⟩ := hcond
      have hreach1 : isReachableLeadsto (snapshotOf g) B C [A] = true := by
        rw [isReachableLeadsto] at hreach2 ⊢
        rw [hlen] at hreach2
        exact reach_mono hsub _ B [A] hreach2
      have hred1 : redundantEdge (snapshotOf g) A C = true :=
        List.any_eq_true.2 ⟨B, hsub A B hB,
          by rw [Bool.and_eq_true]; exact ⟨hBC, hreach1⟩⟩
      rw [hred1] at hC1
      simp at hC1
    rw [reduceStep_eq_entryMap, if_pos htr]
  show (keys (applyTransitiveReduction g)).foldl
    (reduceStep (snapshotOf (applyTransitiveReduction g)))
    (applyTransitiveReduction g) = applyTransitiveReduction g
  exact foldl_fixed _ _ _ (fun A _ => hfix A)

/-- C1 counterexample: in the cyclic graph `{A→[B,C], B→[C], C→[B]}`, `C` is
reachable from `A` before reduction, but the pass removes BOTH of `A`'s
edges (each is "implied" by the other through the `B↔C` cycle in the shared
snapshot), leaving `A` with no outgoing edges: `C` is no longer reachable
from `A`. -/
theorem reduction_disconnects_cyclic_cex :
    isReachableLeadsto (snapshotOf cycGraph) "A" "C" [] = true ∧
    (lookupLinks (applyTransitiveReduction cycGraph) "A").leadsto = [] ∧
    isReachableLeadsto (snapshotOf (applyTransitiveReduction cycGraph)) "A" "C" []
      = false :=
  ⟨by decide, by decide, by decide⟩

/-- C1 amended: for every ACYCLIC graph (no LeadsTo cycle — the restriction
the counterexample forces, and the limitation the spec itself documents for
cycles), transitive reduction never disconnects reachability: every pair
reachable via LeadsTo before the pass is still reachable after it. -/
theorem reduction_preserves_reachability (g : Graph) (hnd : (keys g).Nodup)
    (hacyc : AcyclicSnap (snapshotOf g)) (A C : String)
    (hreach : isReachableLeadsto (snapshotOf g) A C [] = true) :
    isReachableLeadsto (snapshotOf (applyTransitiveReduction g)) A C [] = true := by
  have hsub := snap_reduction_sub g hnd
  rw [isReachableLeadsto] at hreach
  obtain ⟨l0, hl0ne, hw0⟩ := reach_sound _ A [] hreach
  have hbound : ∀ n, (∃ l, l ≠ [] ∧ Walk (snapshotOf g) A l C ∧ l.length = n) →
      n ≤ (snapshotOf g).length := by
    rintro n ⟨l, hne, hw, rfl⟩
    exact walk_length_le hacyc l A hw hne
  obtain ⟨n, ⟨l, hlne, hw, rfl⟩, hmax⟩ :=
    nat_exists_greatest
      (fun n => ∃ l, l ≠ [] ∧ Walk (snapshotOf g) A l C ∧ l.length = n)
      (snapshotOf g).length hbound ⟨l0.length, l0, hl0ne, hw0, rfl⟩
  have hw2 : Walk (snapshotOf (applyTransitiveReduction g)) A l C := by
    by_contra hno
    obtain ⟨l1, a, b, l2, hsplit, hwa, hab, hnab, hwb⟩ :=
      walk_first_broken l A hw hno
    have hred : redundantEdge (snapshotOf g) a b = true :=
      removed_edge_redundant g hnd a b hab hnab
    obtain ⟨B, hBmem, hcond⟩ := List.any_eq_true.1 hred
    rw [Bool.and_eq_true] at hcond
    obtain ⟨_, hBreach⟩ := hcond
    rw [isReachableLeadsto] at hBreach
    obtain ⟨r, hrne, hwr⟩ := reach_sound _ B [a] hBreach
    have hwnew : Walk (snapshotOf g) A ((l1 ++ B :: r) ++ l2) C :=
      walk_append (walk_append hwa ⟨hBmem, hwr⟩) hwb
    have hle := hmax ((l1 ++ B :: r) ++ l2).length
      ⟨(l1 ++ B :: r) ++ l2, by simp, hwnew, rfl⟩
    have hc := congrArg List.length hsplit
    rw [List.length_append, List.length_cons] at hc
    rw [List.length_append, List.length_append, List.length_cons] at hle
    have hrpos : 0 < r.length := List.length_pos.2 hrne
    omega
  rw [isReachableLeadsto]
  apply reach_complete l.length l A [] _ le_rfl hw2 hlne (by simp) (by simp)
  simp [countFree]

/-- Witness for the amended C1 at the spec's reduction scenario: `A→C` is
removed as redundant, yet `C` stays reachable from `A` through `B`. -/
theorem reduction_preserves_reachability_witness :
    ((keys dagGraph).Nodup ∧ AcyclicSnap (snapshotOf dagGraph) ∧
      isReachableLeadsto (snapshotOf dagGraph) "A" "C" [] = true) ∧
    isReachableLeadsto (snapshotOf (applyTransitiveReduction dagGraph)) "A" "C" []
      = true :=
  ⟨⟨by decide, by decide, by decide⟩,
   reduction_preserves_reachability dagGraph (by decide) (by decide) "A" "C"
     (by decide)⟩

/-- Witness for C4 at the spec's reduction scenario. -/
theorem reduction_fixpoint_witness :
    ((keys dagGraph).Nodup ∧ AcyclicSnap (snapshotOf dagGraph)) ∧
    applyTransitiveReduction (applyTransitiveReduction dagGraph) =
      applyTransitiveReduction dagGraph :=
  ⟨⟨by decide, by decide⟩, reduction_fixpoint dagGraph (by decide) (by decide)⟩

theorem forestLen_eq_zero (ch : MmForest) : forestLen ch = 0 ↔ ch = .nil := by
  cases ch with
  | nil => simp [forestLen]
  | cons c cs => simp [forestLen]

theorem slotW_ge (c : MmNode) (s : ℚ) : s ≤ slotW c s := by
  cases c with
  | mk n t x y ch =>
    rw [slotW]
    by_cases h : forestLen ch = 0
    · rw [if_pos h]
    · rw [if_neg h]
      exact le_max_left _ _

theorem bandW_le_slotW (n t : String) (x y : ℚ) (ch : MmForest) (s : ℚ)
    (h : forestLen ch ≠ 0) : bandW ch s ≤ slotW (.mk n t x y ch) s := by
  rw [slotW, if_neg h]
  exact le_max_right _ _

theorem bandW_cons (c : MmNode) (rest : MmForest) (s : ℚ) :
    bandW (.cons c rest) s = slotW c s + MM_H_GAP + bandW rest s := by
  simp only [bandW, slotWSum, forestLen]
  push_cast
  ring

theorem slotWSum_nonneg (s : ℚ) (hs : 0 ≤ s) :
    ∀ cs : MmForest, 0 ≤ slotWSum cs s
  | .nil => le_of_eq rfl
  | .cons c rest => by
    rw [slotWSum]
    have h1 := slotW_ge c s
    have h2 := slotWSum_nonneg s hs rest
    linarith

theorem bandW_ge (cs : MmForest) (s : ℚ) (hs : 0 ≤ s) :
    -MM_H_GAP ≤ bandW cs s := by
  have h1 := slotWSum_nonneg s hs cs
  have h2 : (0 : ℚ) ≤ (forestLen cs : ℚ) := Nat.cast_nonneg _
  have h20 : MM_H_GAP = 20 := rfl
  rw [bandW]
  nlinarith

mutual
theorem placeNode_contain : ∀ (c : MmNode) (cx y s : ℚ), 0 ≤ s →
    ∀ u ∈ nodesN (placeNode c cx y s),
      cx - slotW c s / 2 ≤ u.gx ∧ u.gx ≤ cx + slotW c s / 2
  | .mk n t x0 y0 ch, cx, y, s => by
    intro hs u hu
    simp only [placeNode, nodesN] at hu
    have hsw : s ≤ slotW (MmNode.mk n t x0 y0 ch) s := slotW_ge _ s
    rcases List.mem_cons.1 hu with rfl | hu'
    · simp only [MmNode.gx]
      constructor <;> linarith
    · by_cases hch : forestLen ch = 0
      · rw [(forestLen_eq_zero ch).1 hch] at hu'
        simp [layoutGo, nodesF] at hu'
      · have hband := layoutGo_contain ch (cx - bandW ch s / 2) (y + MM_V_GAP) s hs u hu'
        have hle : bandW ch s ≤ slotW (MmNode.mk n t x0 y0 ch) s :=
          bandW_le_slotW n t x0 y0 ch s hch
        constructor <;> linarith [hband.1, hband.2]
theorem layoutGo_contain : ∀ (cs : MmForest) (x y s : ℚ), 0 ≤ s →
    ∀ u ∈ nodesF (layoutGo cs x y s), x ≤ u.gx ∧ u.gx ≤ x + bandW cs s
  | .nil, x, y, s => by
    intro hs u hu
    simp [layoutGo, nodesF] at hu
  | .cons c rest, x, y, s => by
    intro hs u hu
    simp only [layoutGo, nodesF] at hu
    have hb := bandW_cons c rest s
    have hbr := bandW_ge rest s hs
    have hsw := slotW_ge c s
    have h20 : MM_H_GAP = 20 := rfl
    rcases List.mem_append.1 hu with hu' | hu'
    · have h := placeNode_contain c (x + slotW c s / 2) y s hs u hu'
      constructor <;> linarith [h.1, h.2]
    · have h := layoutGo_contain rest (x + slotW c s + MM_H_GAP) y s hs u hu'
      constructor <;> linarith [h.1, h.2]
end

mutual
theorem placeNodeUp_contain : ∀ (c : MmNode) (cx y s : ℚ), 0 ≤ s →
    ∀ u ∈ nodesN (placeNodeUp c cx y s),
      cx - slotW c s / 2 ≤ u.gx ∧ u.gx ≤ cx + slotW c s / 2
  | .mk n t x0 y0 ch, cx, y, s => by
    intro hs u hu
    simp only [placeNodeUp, nodesN] at hu
    have hsw : s ≤ slotW (MmNode.mk n t x0 y0 ch) s := slotW_ge _ s
    rcases List.mem_cons.1 hu with rfl | hu'
    · simp only [MmNode.gx]
      constructor <;> linarith
    · by_cases hch : forestLen ch = 0
      · rw [(forestLen_eq_zero ch).1 hch] at hu'
        simp [layoutGoUp, nodesF] at hu'
      · have hband := layoutGoUp_contain ch (cx - bandW ch s / 2) (y - MM_V_GAP) s hs u hu'
        have hle : bandW ch s ≤ slotW (MmNode.mk n t x0 y0 ch) s :=
          bandW_le_slotW n t x0 y0 ch s hch
        constructor <;> linarith [hband.1, hband.2]
theorem layoutGoUp_contain : ∀ (cs : MmForest) (x y s : ℚ), 0 ≤ s →
    ∀ u ∈ nodesF (layoutGoUp cs x y s), x ≤ u.gx ∧ u.gx ≤ x + bandW cs s
  | .nil, x, y, s => by
    intro hs u hu
    simp [layoutGoUp, nodesF] at hu
  | .cons c rest, x, y, s => by
    intro hs u hu
    simp only [layoutGoUp, nodesF] at hu
    have hb := bandW_cons c rest s
    have hbr := bandW_ge rest s hs
    have hsw := slotW_ge c s
    have h20 : MM_H_GAP = 20 := rfl
    rcases List.mem_append.1 hu with hu' | hu'
    · have h := placeNodeUp_contain c (x + slotW c s / 2) y s hs u hu'
      constructor <;> linarith [h.1, h.2]
    · have h := layoutGoUp_contain rest (x + slotW c s + MM_H_GAP) y s hs u hu'
      constructor <;> linarith [h.1, h.2]
end

theorem nodes_sub : ∀ (F : MmForest) (b : MmNode), b ∈ toListF F →
    ∀ v ∈ nodesN b, v ∈ nodesF F
  | .nil => by simp [toListF]
  | .cons c cs => by
    intro b hb v hv
    simp only [toListF, List.mem_cons] at hb
    simp only [nodesF, List.mem_append]
    rcases hb with rfl | hb
    · exact Or.inl hv
    · exact Or.inr (nodes_sub cs b hb v hv)

theorem layoutGo_disjoint : ∀ (cs : MmForest) (x y s : ℚ), 0 ≤ s →
    ∀ (pre mid post : List MmNode) (a b : MmNode),
      toListF (layoutGo cs x y s) = pre ++ a :: mid ++ b :: post →
      ∀ u ∈ nodesN a, ∀ v ∈ nodesN b, u.gx < v.gx
  | .nil => by
    intro x y s _ pre mid post a b hsplit
    simp [layoutGo, toListF] at hsplit
  | .cons c rest => by
    intro x y s hs pre mid post a b hsplit u hu v hv
    have hstep : toListF (layoutGo (.cons c rest) x y s) =
        placeNode c (x + slotW c s / 2) y s ::
          toListF (layoutGo rest (x + slotW c s + MM_H_GAP) y s) := rfl
    rw [hstep] at hsplit
    have h20 : MM_H_GAP = 20 := rfl
    cases pre with
    | nil =>
      simp only [List.nil_append] at hsplit
      injection hsplit with h1 h2
      have hub := placeNode_contain c (x + slotW c s / 2) y s hs u (h1 ▸ hu)
      have hbmem : b ∈ toListF (layoutGo rest (x + slotW c s + MM_H_GAP) y s) := by
        rw [h2]
        simp
      have hvmem := nodes_sub _ b hbmem v hv
      have hvb := layoutGo_contain rest (x + slotW c s + MM_H_GAP) y s hs v hvmem
      have := hub.2
      linarith [hvb.1]
    | cons p pre' =>
      simp only [List.cons_append] at hsplit
      injection hsplit with h1 h2
      exact layoutGo_disjoint rest (x + slotW c s + MM_H_GAP) y s hs pre' mid post a b
        h2 u hu v hv

theorem layoutGoUp_disjoint : ∀ (cs : MmForest) (x y s : ℚ), 0 ≤ s →
    ∀ (pre mid post : List MmNode) (a b : MmNode),
      toListF (layoutGoUp cs x y s) = pre ++ a :: mid ++ b :: post →
      ∀ u ∈ nodesN a, ∀ v ∈ nodesN b, u.gx < v.gx
  | .nil => by
    intro x y s _ pre mid post a b hsplit
    simp [layoutGoUp, toListF] at hsplit
  | .cons c rest => by
    intro x y s hs pre mid post a b hsplit u hu v hv
    have hstep : toListF (layoutGoUp (.cons c rest) x y s) =
        placeNodeUp c (x + slotW c s / 2) y s ::
          toListF (layoutGoUp rest (x + slotW c s + MM_H_GAP) y s) := rfl
    rw [hstep] at hsplit
    have h20 : MM_H_GAP = 20 := rfl
    cases pre with
    | nil =>
      simp only [List.nil_append] at hsplit
      injection hsplit with h1 h2
      have hub := placeNodeUp_contain c (x + slotW c s / 2) y s hs u (h1 ▸ hu)
      have hbmem : b ∈ toListF (layoutGoUp rest (x + slotW c s + MM_H_GAP) y s) := by
        rw [h2]
        simp
      have hvmem := nodes_sub _ b hbmem v hv
      have hvb := layoutGoUp_contain rest (x + slotW c s + MM_H_GAP) y s hs v hvmem
      have := hub.2
      linarith [hvb.1]
    | cons p pre' =>
      simp only [List.cons_append] at hsplit
      injection hsplit with h1 h2
      exact layoutGoUp_disjoint rest (x + slotW c s + MM_H_GAP) y s hs pre' mid post a b
        h2 u hu v hv

/-- C8: in the mindmap layout with the configured slot width
`mmSlot = max(54, r*4)`, no two sibling subtrees' horizontal spans overlap:
every node of an earlier sibling's subtree lies strictly to the left of
every node of a later sibling's subtree, for both the descendant
(`layoutDown`) and the ancestor (`layoutUp`) direction, for every input
forest and position.  Each subtree stays within its `slotW`-wide slot, the
slots are placed left to right separated by the fixed gap, and each node is
centred over its children's band. -/
theorem mm_sibling_spans_disjoint (r parentCX y : ℚ) (cs : MmForest)
    (pre mid post : List MmNode) (a b : MmNode) :
    (toListF (layoutDown cs parentCX y (max 54 (r * 4))) =
        pre ++ a :: mid ++ b :: post →
      ∀ u ∈ nodesN a, ∀ v ∈ nodesN b, u.gx < v.gx) ∧
    (toListF (layoutUp cs parentCX y (max 54 (r * 4))) =
        pre ++ a :: mid ++ b :: post →
      ∀ u ∈ nodesN a, ∀ v ∈ nodesN b, u.gx < v.gx) := by
  have hs : (0 : ℚ) ≤ max 54 (r * 4) := le_trans (by norm_num) (le_max_left _ _)
  constructor
  · intro hsplit
    exact layoutGo_disjoint cs _ y (max 54 (r * 4)) hs pre mid post a b hsplit
  · intro hsplit
    exact layoutGoUp_disjoint cs _ y (max 54 (r * 4)) hs pre mid post a b hsplit

theorem mm_witness_split_down :
    toListF (layoutDown mmTwoLeaves 0 0 (max 54 (0 * 4))) =
      [] ++ mmLaidA :: [] ++ mmLaidB :: [] := by
  have hmax : (max 54 ((0:ℚ) * 4)) = 54 := by norm_num
  unfold layoutDown
  rw [hmax]
  have hband : bandW mmTwoLeaves 54 = 128 := by
    norm_num [bandW, slotWSum, slotW, forestLen, mmTwoLeaves, MM_H_GAP]
  rw [hband]
  norm_num
  simp only [mmTwoLeaves, layoutGo, placeNode, toListF, mmLaidA, mmLaidB]
  norm_num [slotW, forestLen, MM_H_GAP, bandW, slotWSum, layoutGo]

theorem mm_witness_split_up :
    toListF (layoutUp mmTwoLeaves 0 0 (max 54 (0 * 4))) =
      [] ++ mmLaidA :: [] ++ mmLaidB :: [] := by
  have hmax : (max 54 ((0:ℚ) * 4)) = 54 := by norm_num
  unfold layoutUp
  rw [hmax]
  have hband : bandW mmTwoLeaves 54 = 128 := by
    norm_num [bandW, slotWSum, slotW, forestLen, mmTwoLeaves, MM_H_GAP]
  rw [hband]
  norm_num
  simp only [mmTwoLeaves, layoutGoUp, placeNodeUp, toListF, mmLaidA, mmLaidB]
  norm_num [slotW, forestLen, MM_H_GAP, bandW, slotWSum, layoutGoUp]

/-- Witness for C8: two 54-wide sibling leaf slots centred at -37 and 37;
every node of the first subtree is strictly left of every node of the
second, in both layout directions. -/
theorem mm_sibling_spans_disjoint_witness :
    (toListF (layoutDown mmTwoLeaves 0 0 (max 54 (0 * 4))) =
        [] ++ mmLaidA :: [] ++ mmLaidB :: [] ∧
     toListF (layoutUp mmTwoLeaves 0 0 (max 54 (0 * 4))) =
        [] ++ mmLaidA :: [] ++ mmLaidB :: []) ∧
    ((∀ u ∈ nodesN mmLaidA, ∀ v ∈ nodesN mmLaidB, u.gx < v.gx) ∧
     (∀ u ∈ nodesN mmLaidA, ∀ v ∈ nodesN mmLaidB, u.gx < v.gx)) :=
  ⟨⟨mm_witness_split_down, mm_witness_split_up⟩,
   (mm_sibling_spans_disjoint 0 0 0 mmTwoLeaves [] [] [] mmLaidA mmLaidB).1
     mm_witness_split_down,
   (mm_sibling_spans_disjoint 0 0 0 mmTwoLeaves [] [] [] mmLaidA mmLaidB).2
     mm_witness_split_up⟩

theorem addSet_mem_self (l : List String) (x : String) : x ∈ addSet l x := by
  unfold addSet
  by_cases h : x ∈ l <;> simp [h]

theorem addSet_mem_of (l : List String) (x y : String) (h : x ∈ l) :
    x ∈ addSet l y := by
  unfold addSet
  by_cases hy : y ∈ l <;> simp [hy, h]

theorem addTag_fst_mem (acc : List String × List String × List String)
    (tt : String × String) (x : String) (h : x ∈ acc.1) : x ∈ (addTag acc tt).1 := by
  unfold addTag
  by_cases h1 : tt.1 = "leadsto" <;> by_cases h2 : tt.1 = "dependson" <;>
    by_cases h3 : tt.1 = "informedby" <;>
      simp [h1, h2, h3, addSet_mem_of, h]

theorem foldTags_fst_mem (x : String) :
    ∀ (tags : List (String × String)) (acc : List String × List String × List String),
      x ∈ acc.1 → x ∈ (tags.foldl addTag acc).1 := by
  intro tags
  induction tags with
  | nil => intro acc h; exact h
  | cons t ts ih =>
    intro acc h
    rw [List.foldl_cons]
    exact ih (addTag acc t) (addTag_fst_mem acc t x h)

theorem scan_of_leadsto_quoted (rest : String) :
    scanInlineTags ("leadsto@\"my note\"" ++ rest) =
      ("leadsto", "my note") :: scanAux (rest.data.length + 16) (some '"') rest.data := by
  have hdata : ("leadsto@\"my note\"" ++ rest).data =
      'l' :: 'e' :: 'a' :: 'd' :: 's' :: 't' :: 'o' :: '@' :: '"' :: 'm' :: 'y' :: ' ' :: 'n' :: 'o' :: 't' :: 'e' :: '"' :: rest.data := by
    rw [String.data_append]
    rfl
  unfold scanInlineTags
  rw [hdata]
  have hlen : ('l' :: 'e' :: 'a' :: 'd' :: 's' :: 't' :: 'o' :: '@' :: '"' :: 'm' :: 'y' :: ' ' :: 'n' :: 'o' :: 't' :: 'e' :: '"' :: rest.data).length
      = (rest.data.length + 16) + 1 := by simp
  rw [hlen]
  have hm : tryMatchAt none
      ('l' :: 'e' :: 'a' :: 'd' :: 's' :: 't' :: 'o' :: '@' :: '"' :: 'm' :: 'y' :: ' ' :: 'n' :: 'o' :: 't' :: 'e' :: '"' :: rest.data) =
      some (⟨some "leadsto", none, some "my note", none⟩, '"', rest.data) := rfl
  simp only [scanAux, hm]
  rfl

/-- C7 counterexample: this body CONTAINS the text `leadsto@"my note"`, but
the occurrence is immediately preceded by a word character, so `\b` fails
before the keyword, nothing matches, and `my note` is not extracted. -/
theorem inline_quoted_tag_cex :
    "aleadsto@\"my note\"" = "a" ++ "leadsto@\"my note\"" ∧
    (parseNoteLinks "note" FmVal.missing FmVal.missing FmVal.missing
      "aleadsto@\"my note\"").leadsto = [] :=
  ⟨by decide, by decide⟩

/-- C7 amended: for a document whose body contains `leadsto@"my note"` at a
match position — here, at the very start, with anything after it — the
quoted target with its embedded space is extracted into the LeadsTo set,
whatever the metadata and the rest of the body contain. -/
theorem inline_quoted_tag_extracted (basename : String) (fmL fmD fmI : FmVal)
    (rest : String) :
    "my note" ∈ (parseNoteLinks basename fmL fmD fmI
      ("leadsto@\"my note\"" ++ rest)).leadsto := by
  have hdata : ("leadsto@\"my note\"" ++ rest).data =
      'l' :: 'e' :: 'a' :: 'd' :: 's' :: 't' :: 'o' :: '@' :: '"' :: 'm' :: 'y' :: ' ' :: 'n' :: 'o' :: 't' :: 'e' :: '"' :: rest.data := by
    rw [String.data_append]
    rfl
  have hstrip : stripFrontmatter ("leadsto@\"my note\"" ++ rest) =
      "leadsto@\"my note\"" ++ rest := by
    unfold stripFrontmatter
    rw [hdata]
    rfl
  show "my note" ∈
    ((scanInlineTags (stripFrontmatter ("leadsto@\"my note\"" ++ rest))).foldl addTag
      (setOfList (toArray fmL), setOfList (toArray fmD), setOfList (toArray fmI))).1
  rw [hstrip, scan_of_leadsto_quoted rest, List.foldl_cons]
  apply foldTags_fst_mem
  show "my note" ∈ (addTag _ ("leadsto", "my note")).1
  unfold addTag
  norm_num
  exact addSet_mem_self _ _

theorem toDigitsCore_length_ge (b : Nat) :
    ∀ (fuel n : Nat) (ds : List Char),
      ds.length ≤ (Nat.toDigitsCore b fuel n ds).length := by
  intro fuel
  induction fuel with
  | zero => intro n ds; rw [Nat.toDigitsCore]
  | succ f ih =>
    intro n ds
    rw [Nat.toDigitsCore]
    by_cases h : n / b = 0
    · simp only [h, if_pos rfl]
      simp
    · simp only [if_neg h]
      exact le_trans (by simp) (ih (n / b) (Nat.digitChar (n % b) :: ds))

theorem nat_repr_ne_empty (n : Nat) : Nat.repr n ≠ "" := by
  intro h
  have hd : Nat.toDigitsCore 10 (n + 1) n [] = [] := by
    have h2 := congrArg String.data h
    simpa [Nat.repr, Nat.toDigits, List.asString] using h2
  have hlen := congrArg List.length hd
  rw [Nat.toDigitsCore] at hlen
  by_cases h0 : n / 10 = 0
  · simp [h0] at hlen
  · rw [if_neg h0] at hlen
    have := toDigitsCore_length_ge 10 n (n / 10) [Nat.digitChar (n % 10)]
    simp at hlen
    rw [hlen] at this
    simp at this

theorem int_toString_ne_empty (n : Int) : toString n ≠ "" := by
  show Int.repr n ≠ ""
  cases n with
  | ofNat m => exact nat_repr_ne_empty m
  | negSucc m =>
    intro h
    have h2 := congrArg String.data h
    rw [Int.repr, String.data_append] at h2
    simp at h2

/-- A truthy scalar never stringifies to the empty string: truthy strings
are nonempty by definition of falsiness, booleans give `"true"`/`"false"`,
and a number's decimal representation always has at least one digit. -/
theorem jsStringS_ne_empty (sc : FmScalar) (h : falsy (.scalar sc) = false) :
    jsStringS sc ≠ "" := by
  cases sc with
  | null => simp [falsy] at h
  | boolv b => cases b <;> simp [falsy, jsStringS] at h ⊢
  | num n => exact int_toString_ne_empty n
  | str s =>
    simp only [falsy, beq_eq_false_iff_ne, ne_eq] at h
    exact h

/-- C6 amended: `toArray` maps an absent — or otherwise JS-falsy — value
(`null`, `false`, `0`, `""`) to the empty set, a truthy scalar to the
singleton of its stringification, and a list to its elements stringified
with empty entries dropped; the normalized set never contains the empty
string — but whitespace-only entries are retained, not dropped. -/
theorem toArray_normalization :
    toArray .missing = [] ∧
    (∀ sc : FmScalar, falsy (.scalar sc) = true → toArray (.scalar sc) = []) ∧
    (∀ sc : FmScalar, falsy (.scalar sc) = false →
      toArray (.scalar sc) = [jsStringS sc]) ∧
    (∀ l, toArray (.arr l) = (l.map jsStringS).filter fun s => decide (s ≠ "")) ∧
    (∀ v : FmVal, "" ∉ toArray v) := by
  refine ⟨rfl, ?_, ?_, fun l => rfl, ?_⟩
  · intro sc h
    simp [toArray, h]
  · intro sc h
    simp [toArray, h, jsStringS_ne_empty sc h]
  · intro v
    unfold toArray
    by_cases h : falsy v
    · simp [h]
    · simp only [h, if_neg, Bool.false_eq_true, ite_false]
      match v with
      | .arr l => simp
      | .missing => simp
      | .scalar sc => simp

/-- Witness for the amended C6: the falsy scalar `0` yields the empty set,
and the truthy scalar `"foo"` yields the singleton `["foo"]`. -/
theorem toArray_normalization_witness :
    (falsy (.scalar (.num 0)) = true ∧ falsy (.scalar (.str "foo")) = false) ∧
    toArray (.scalar (.num 0)) = [] ∧
    toArray (.scalar (.str "foo")) = ["foo"] :=
  ⟨⟨by decide, by decide⟩,
   toArray_normalization.2.1 (.num 0) (by decide),
   toArray_normalization.2.2.1 (.str "foo") (by decide)⟩

end ArchyKG
